import Mathlib

/-
Verification development for the dfa-utils repository.

The repository has three Rust source files:
  src/table.rs     - Table<A,B,C>, a ternary relation with grouped views
  src/partition.rs - Partition<T>, a refinable partition with mark/split
  src/lib.rs       - DFA<S,E> with prune_unreachable and minimize

The embedding below translates these faithfully:
  - Vec<T> becomes List T;
  - HashMap<K,V> becomes an association list (List (K × V)) whose insert
    replaces the binding of an existing key, exactly like HashMap::insert;
    indexing a missing key (a Rust panic) surfaces as Option.none;
  - HashSet<T> iteration order and HashMap iteration order are unspecified
    in Rust; the embedding fixes concrete deterministic orders (original
    list order, or first-occurrence order for deduplicated key lists);
  - assert! failures and out-of-bounds indexing make operations return
    Option.none (modelling the panic / abort);
  - the two BFS while-loops of prune_unreachable are unrolled with an
    explicit fuel that is proven sufficient;
  - the coupled refinement loop of minimize is likewise given fuel.
-/

namespace DfaUtils

/-- Association-list model of std::collections::HashMap lookup: the value of
the first binding of the key, if any. -/
def lookupA {α β : Type} [DecidableEq α] : List (α × β) → α → Option β
  | [], _ => none
  | kv :: rest, a => if kv.1 = a then some kv.2 else lookupA rest a

/-- Association-list model of HashMap::insert: the new binding replaces any
existing binding of the same key. -/
def insertA {α β : Type} [DecidableEq α] (m : List (α × β)) (a : α) (b : β) :
    List (α × β) :=
  (a, b) :: m.filter (fun kv => kv.1 ≠ a)

/-- Keys of an association list. -/
def keysA {α β : Type} (m : List (α × β)) : List α := m.map (·.1)

theorem lookupA_insertA_self {α β : Type} [DecidableEq α]
    (m : List (α × β)) (a : α) (b : β) : lookupA (insertA m a b) a = some b := by
  simp [insertA, lookupA]

theorem lookupA_filter_ne {α β : Type} [DecidableEq α]
    (m : List (α × β)) (a x : α) (hx : x ≠ a) :
    lookupA (m.filter (fun kv => kv.1 ≠ a)) x = lookupA m x := by
  induction m with
  | nil => rfl
  | cons kv rest ih =>
    by_cases hk : kv.1 = a
    · rw [List.filter_cons_of_neg (by simp [hk]), ih, lookupA,
        if_neg (by rw [hk]; exact fun h => hx h.symm)]
    · rw [List.filter_cons_of_pos (by simp [hk]), lookupA, lookupA, ih]

theorem lookupA_insertA_ne {α β : Type} [DecidableEq α]
    (m : List (α × β)) (a x : α) (b : β) (hx : x ≠ a) :
    lookupA (insertA m a b) x = lookupA m x := by
  rw [insertA, lookupA, if_neg (fun h => hx h.symm), lookupA_filter_ne m a x hx]

theorem lookupA_eq_none_iff {α β : Type} [DecidableEq α]
    (m : List (α × β)) (x : α) : lookupA m x = none ↔ x ∉ keysA m := by
  induction m with
  | nil => simp [lookupA, keysA]
  | cons kv rest ih =>
    rw [lookupA, keysA, List.map_cons, List.mem_cons]
    by_cases hk : kv.1 = x
    · simp [hk]
    · rw [if_neg hk, ih]
      have hxk : ¬ x = kv.1 := fun h => hk h.symm
      rw [keysA]
      tauto

theorem lookupA_isSome_iff {α β : Type} [DecidableEq α]
    (m : List (α × β)) (x : α) : (lookupA m x).isSome ↔ x ∈ keysA m := by
  have h := lookupA_eq_none_iff m x
  cases hl : lookupA m x <;> rw [hl] at h <;> simp at h ⊢ <;> tauto

theorem keysA_insertA {α β : Type} [DecidableEq α]
    (m : List (α × β)) (a x : α) (b : β) :
    x ∈ keysA (insertA m a b) ↔ x = a ∨ x ∈ keysA m := by
  constructor
  · intro hx
    rcases List.mem_map.mp hx with ⟨kv, hkv, hk⟩
    rcases List.mem_cons.mp hkv with h | h
    · exact Or.inl (by rw [← hk, h])
    · exact Or.inr (List.mem_map.mpr ⟨kv, List.mem_of_mem_filter h, hk⟩)
  · intro hx
    rcases hx with rfl | h
    · exact List.mem_map.mpr ⟨(x, b), List.mem_cons_self _ _, rfl⟩
    · by_cases hxa : x = a
      · exact List.mem_map.mpr ⟨(a, b), List.mem_cons_self _ _, hxa.symm⟩
      · rcases List.mem_map.mp h with ⟨kv, hkv, hk⟩
        refine List.mem_map.mpr ⟨kv, List.mem_cons_of_mem _ ?_, hk⟩
        exact List.mem_filter.mpr ⟨hkv, by simp [hk, hxa]⟩

/-- Index-value pairs of a list starting at index n, modelling
iter().enumerate() (with an explicit starting offset for easy induction). -/
def enumFromL {T : Type} (n : Nat) : List T → List (Nat × T)
  | [] => []
  | x :: xs => (n, x) :: enumFromL (n + 1) xs

/-- Refinable partition, from src/partition.rs. `elements` is the backing
Vec<T>; `locations` and `owners` are HashMaps keyed by element value;
`spans` holds each set's half-open range (start, stop) of the backing array;
`marked` holds each set's count of marked elements (the marked elements of a
set occupy the first `marked` positions of its span); `touched` is the stack
of sets dirtied since the last split, most recently pushed first (Vec push
and pop operate at the same end, so a head-first list preserves the LIFO
order). -/
structure Partition (T : Type) where
  elements : List T
  locations : List (T × Nat)
  owners : List (T × Nat)
  spans : List (Nat × Nat)
  marked : List Nat
  touched : List Nat
deriving DecidableEq

namespace Partition

variable {T : Type} [DecidableEq T]

/-- Partition::new. Collecting the enumerated pairs into a HashMap lets a
later binding of the same key win, which matters when `elements` has
duplicates; the insert-fold reproduces that. -/
def new (elements : List T) : Partition T :=
  { elements := elements
    locations := (enumFromL 0 elements).foldl (fun m p => insertA m p.2 p.1) []
    owners := elements.foldl (fun m e => insertA m e 0) []
    spans := [(0, elements.length)]
    marked := [0]
    touched := [] }

/-- Partition::len: the current number of sets. -/
def size (p : Partition T) : Nat := p.spans.length

/-- Partition::owned: the current contiguous slice of a set's elements. -/
def owned (p : Partition T) (s : Nat) : List T :=
  ((p.elements.drop (p.spans.getD s (0, 0)).1).take
    ((p.spans.getD s (0, 0)).2 - (p.spans.getD s (0, 0)).1))

/-- Partition::owner: HashMap indexing panics on a missing key, hence Option. -/
def ownerOf (p : Partition T) (x : T) : Option Nat := lookupA p.owners x

/-- Partition::canonical: the element at the start of the set's span; an
out-of-range index (a Rust panic) yields none. -/
def canonical (p : Partition T) (s : Nat) : Option T :=
  p.elements.get? (p.spans.getD s (0, 0)).1

/-- Partition::mark. none models a panic: a missing HashMap key, the assert
that the element was not already marked (its location must not be below the
marked boundary of its owning set), or an out-of-bounds swap. The span and
marked-count indexing uses getD as those indices are in range in every
reachable state. -/
def mark (p : Partition T) (item : T) : Option (Partition T) :=
  match lookupA p.owners item, lookupA p.locations item with
  | some owner, some i =>
    let st := (p.spans.getD owner (0, 0)).1
    let mk0 := p.marked.getD owner 0
    let j := st + mk0
    if i < j then none
    else
      let next := fun (p1 : Partition T) =>
        some { p1 with
               touched := if mk0 = 0 then owner :: p1.touched else p1.touched
               marked := p1.marked.set owner (mk0 + 1) }
      if j < i then
        match p.elements.get? i, p.elements.get? j with
        | some ei, some target =>
          next { p with
                 elements := (p.elements.set i target).set j ei
                 locations := insertA (insertA p.locations item j) target i }
        | _, _ => none
      else next p
  | _, _ => none

/-- One iteration of the Partition::split loop body on the popped set s:
clear its mark count; if the whole set was marked leave it unchanged;
otherwise split its span at the marked boundary, giving the smaller half a
fresh set identifier (appended at the end) and re-owning its elements. -/
def splitStep (p : Partition T) (s : Nat) : Partition T :=
  let st := (p.spans.getD s (0, 0)).1
  let en := (p.spans.getD s (0, 0)).2
  let mid := st + p.marked.getD s 0
  let q : Partition T := { p with marked := p.marked.set s 0 }
  if mid = en then q
  else
    let s1 := q.spans.length
    let keep := if mid - st ≥ en - mid then (st, mid) else (mid, en)
    let fresh := if mid - st ≥ en - mid then (mid, en) else (st, mid)
    { q with
      spans := q.spans.set s keep ++ [fresh]
      marked := q.marked ++ [0]
      owners := (List.range' fresh.1 (fresh.2 - fresh.1)).foldl
        (fun m i =>
          match q.elements.get? i with
          | some e => insertA m e s1
          | none => m) q.owners }

/-- The Partition::split drain loop: pop touched sets one at a time (head
of the list is the most recently pushed) and process each. -/
def splitAux (p : Partition T) : List Nat → Partition T
  | [] => p
  | s :: rest => splitAux (splitStep p s) rest

/-- Partition::split. -/
def split (p : Partition T) : Partition T :=
  splitAux { p with touched := [] } p.touched

end Partition

/-- One step of group_by_to from src/table.rs: HashMap entry(k).or_default()
followed by Vec::push appends the value at the end of the key's list. -/
def pushG {κ ν : Type} [DecidableEq κ] (m : List (κ × List ν)) (k : κ) (v : ν) :
    List (κ × List ν) :=
  match lookupA m k with
  | some l => insertA m k (l ++ [v])
  | none => insertA m k [v]

/-- group_by_to from src/table.rs: fold the input through pushG. -/
def groupByTo {τ κ ν : Type} [DecidableEq κ]
    (input : List τ) (keyF : τ → κ) (valF : τ → ν) : List (κ × List ν) :=
  input.foldl (fun m t => pushG m (keyF t) (valF t)) []

/-- Reading a grouped view, modelling HashMap::get at a use site where a
missing key means an empty neighbor list. -/
def lookupG {κ ν : Type} [DecidableEq κ] (m : List (κ × List ν)) (k : κ) :
    List ν :=
  (lookupA m k).getD []

/-- Table::by_a: group the transition triples by their first coordinate. -/
def byA {A B C : Type} [DecidableEq A] (tuples : List (A × B × C)) :
    List (A × List (B × C)) :=
  groupByTo tuples (fun t => t.1) (fun t => (t.2.1, t.2.2))

/-- Table::by_b: group the transition triples by their second coordinate. -/
def byB {A B C : Type} [DecidableEq B] (tuples : List (A × B × C)) :
    List (B × List (A × C)) :=
  groupByTo tuples (fun t => t.2.1) (fun t => (t.1, t.2.2))

/-- Table::by_c: group the transition triples by their third coordinate. -/
def byC {A B C : Type} [DecidableEq C] (tuples : List (A × B × C)) :
    List (C × List (A × B)) :=
  groupByTo tuples (fun t => t.2.2) (fun t => (t.1, t.2.1))

/-- DFA from src/lib.rs. The Rust final_states is a HashSet (no duplicates,
unspecified order); a list models it, with list order standing in for the
unspecified iteration order. The transitions Table is its ordered Vec of
triples. -/
structure DFA (S E : Type) where
  initial_state : S
  final_states : List S
  transitions : List (S × E × S)
deriving DecidableEq

section DFADefs

variable {S E : Type} [DecidableEq S] [DecidableEq E]

/-- Forward neighbors used by the reachability BFS of prune_unreachable:
the destinations listed under a source in the by_a view (missing key means
no neighbors). -/
def nbrsOut (ts : List (S × E × S)) (s : S) : List S :=
  (lookupG (byA ts) s).map (fun lc => lc.2)

/-- Backward neighbors used by the relevance BFS of prune_unreachable:
the sources listed under a destination in the by_c view. -/
def nbrsIn (ts : List (S × E × S)) (s : S) : List S :=
  (lookupG (byC ts) s).map (fun sl => sl.1)

/-- The while-let BFS loop shared by both traversals of prune_unreachable:
pop the queue front; skip states already visited; otherwise visit the state
and push its neighbors at the back. The Rust loop runs until the queue is
empty; the fuel is an upper bound on its iteration count, proven sufficient
where the loop's result is reasoned about. -/
def bfsAux (nbrs : S → List S) : Nat → List S → List S → List S
  | 0, visited, _ => visited
  | _ + 1, visited, [] => visited
  | fuel + 1, visited, src :: rest =>
    if src ∈ visited then bfsAux nbrs fuel visited rest
    else bfsAux nbrs fuel (src :: visited) (rest ++ nbrs src)

/-- Fuel sufficient for the BFS: one iteration per initial queue entry plus
one per (state, its neighbor list) of a universe covering every state the
queue can ever hold. -/
def bfsFuel (nbrs : S → List S) (univ seeds : List S) : Nat :=
  ((univ.map (fun v => (nbrs v).length + 1)).sum) + seeds.length

/-- Run the BFS from the given seeds. -/
def bfsFrom (nbrs : S → List S) (univ seeds : List S) : List S :=
  bfsAux nbrs (bfsFuel nbrs univ seeds) [] seeds

/-- Termination potential of the BFS loop: every unvisited universe state
contributes one iteration for its own visit plus one per neighbor it will
enqueue, and every queued state contributes one iteration. -/
def bfsPotential (nbrs : S → List S) (univ visited queue : List S) : Nat :=
  ((univ.filter (fun v => decide (v ∉ visited))).map
    (fun v => (nbrs v).length + 1)).sum + queue.length

/-- States the forward BFS queue can contain: the initial state and every
transition destination. -/
def univF (d : DFA S E) : List S :=
  (d.initial_state :: d.transitions.map (fun t => t.2.2)).dedup

/-- States the backward BFS queue can contain: the accepting states and
every transition source. -/
def univB (d : DFA S E) : List S :=
  (d.final_states ++ d.transitions.map (fun t => t.1)).dedup

/-- The `reachable` set of prune_unreachable: forward BFS from the initial
state. -/
def reachableOf (d : DFA S E) : List S :=
  bfsFrom (nbrsOut d.transitions) (univF d) [d.initial_state]

/-- The `relevant` set of prune_unreachable: backward BFS from the
accepting states. -/
def relevantOf (d : DFA S E) : List S :=
  bfsFrom (nbrsIn d.transitions) (univB d) d.final_states

/-- DFA::prune_unreachable from src/lib.rs: compute the reachable set by
forward BFS from the initial state, the relevant set by backward BFS from
the accepting states, intersect them (the Rust `allowed` set; membership in
it is membership in both), and either signal the empty language (the
initial state is not allowed) or keep only allowed finals and transitions
with both endpoints allowed. -/
def pruneUnreachable (d : DFA S E) : Option (DFA S E) :=
  if d.initial_state ∈ reachableOf d ∧ d.initial_state ∈ relevantOf d then
    some { initial_state := d.initial_state
           final_states := d.final_states.filter
             (fun q => decide (q ∈ reachableOf d ∧ q ∈ relevantOf d))
           transitions := d.transitions.filter
             (fun t => decide ((t.1 ∈ reachableOf d ∧ t.1 ∈ relevantOf d) ∧
               (t.2.2 ∈ reachableOf d ∧ t.2.2 ∈ relevantOf d))) }
  else none

/-- Mark a list of items one after the other; the first panic aborts. -/
def markAll (p : Partition S) (xs : List S) : Option (Partition S) :=
  xs.foldlM Partition.mark p

/-- The state universe of the blocks partition in minimize: every state
that appears as a transition endpoint (by_src keys chained with by_dst
keys, collected through a HashSet). The HashSet iteration order is
unspecified; the deduplicated order List.dedup produces is the embedding's
concrete choice. -/
def statesUniverse (ts : List (S × E × S)) : List S :=
  (ts.map (fun t => t.1) ++ ts.map (fun t => t.2.2)).dedup

/-- The distinct labels in by_label iteration order; the HashMap order is
unspecified and the deduplicated order List.dedup produces is the
embedding's concrete choice. -/
def labelsOf (ts : List (S × E × S)) : List E :=
  (ts.map (fun t => t.2.1)).dedup

/-- Cord-partition label seeding of minimize: for each label, mark every
transition carrying it (reassembled from the by_b view) and split. -/
def seedCords (ts : List (S × E × S)) : Option (Partition (S × E × S)) :=
  (labelsOf ts).foldlM
    (fun p l => do
      let p1 ← markAll p ((lookupG (byB ts) l).map (fun sd => (sd.1, l, sd.2)))
      pure p1.split)
    (Partition.new ts)

/-- Block-partition seeding of minimize: mark every accepting state once
and split. -/
def seedBlocks (d : DFA S E) : Option (Partition S) := do
  let b1 ← markAll (Partition.new (statesUniverse d.transitions)) d.final_states
  pure b1.split

/-- The cord partition right after minimize's label seeding. -/
def minimizeSeedCords (d : DFA S E) : Option (Partition (S × E × S)) :=
  seedCords d.transitions

/-- The literal initial cursor values of minimize's refinement loop,
(b, c) = (1, 0) from the two let-mut statements in src/lib.rs. -/
def minimizeLoopStart : Nat × Nat := (1, 0)

/-- The inner while-loop of minimize: while b < blocks.len(), mark in cords
every transition arriving at a state of block-set b, split cords, advance b. -/
def innerLoop (byDstG : S → List (S × E)) :
    Nat → Partition S → Partition (S × E × S) → Nat →
    Option (Partition S × Partition (S × E × S) × Nat)
  | 0, _, _, _ => none
  | fuel + 1, blocks, cords, b =>
    if b < blocks.size then do
      let cords1 ← markAll cords
        ((blocks.owned b).flatMap
          (fun dst => (byDstG dst).map (fun sl => (sl.1, sl.2, dst))))
      innerLoop byDstG fuel blocks cords1.split (b + 1)
    else some (blocks, cords, b)

/-- The outer while-loop of minimize: while c < cords.len(), mark in blocks
the source of every transition of cord-set c, split blocks, advance c, then
drain the inner loop. -/
def outerLoop (byDstG : S → List (S × E)) :
    Nat → Partition S → Partition (S × E × S) → Nat → Nat →
    Option (Partition S × Partition (S × E × S))
  | 0, _, _, _, _ => none
  | fuel + 1, blocks, cords, b, c =>
    if c < cords.size then do
      let blocks1 ← markAll blocks ((cords.owned c).map (fun t => t.1))
      let r ← innerLoop byDstG fuel blocks1.split cords (b)
      outerLoop byDstG fuel r.1 r.2.1 r.2.2 (c + 1)
    else some (blocks, cords)

/-- Quotient transition construction of minimize: for each block, take its
canonical state and emit (canonical source, label, canonical block of
destination) for each of its outgoing transitions. -/
def canonicalTuples (ts : List (S × E × S)) (blocks : Partition S) :
    Option (List (S × E × S)) :=
  (List.range blocks.size).foldlM
    (fun acc i => do
      let src ← blocks.canonical i
      let outgoing := lookupG (byA ts) src
      outgoing.foldlM
        (fun acc2 ld => do
          let ow ← blocks.ownerOf ld.2
          let dstC ← blocks.canonical ow
          pure (acc2 ++ [(src, ld.1, dstC)]))
        acc)
    []

/-- DFA::minimize from src/lib.rs. none models a Rust panic (or exhausted
loop fuel; the fuel bounds below exceed the loop counts of every input this
development evaluates). -/
def minimize (d : DFA S E) : Option (DFA S E) := do
  let ts := d.transitions
  let blocks2 ← seedBlocks d
  let cords2 ← minimizeSeedCords d
  let fuel := ts.length + (statesUniverse ts).length + 2
  let r ← outerLoop (fun dst => lookupG (byC ts) dst) fuel blocks2 cords2
    minimizeLoopStart.1 minimizeLoopStart.2
  let blocksF := r.1
  let tuples ← canonicalTuples ts blocksF
  let ownInit ← blocksF.ownerOf d.initial_state
  let init ← blocksF.canonical ownInit
  let finals ← d.final_states.mapM
    (fun q => do
      let ow ← blocksF.ownerOf q
      blocksF.canonical ow)
  pure { initial_state := init, final_states := finals, transitions := tuples }

end DFADefs

section Semantics

variable {S E : Type} [DecidableEq S] [DecidableEq E]

/-- One transition step: some label carries a to b. -/
def stepT (ts : List (S × E × S)) (a b : S) : Prop := ∃ l, (a, l, b) ∈ ts

/-- Reachability along transition steps. -/
def ReachT (ts : List (S × E × S)) : S → S → Prop :=
  Relation.ReflTransGen (stepT ts)

/-- A state is live when it is reachable from the initial state and some
accepting state is reachable from it. -/
def Live (d : DFA S E) (s : S) : Prop :=
  ReachT d.transitions d.initial_state s ∧
  ∃ f ∈ d.final_states, ReachT d.transitions s f

/-- Modelled from the spec: the repository has no acceptance evaluator in
src/, so standard DFA semantics is taken from the spec (sections 1, 3 and
the glossary): follow at most one transition per (state, label) - the first
matching triple, unique under the spec's determinism precondition - and
reject when no transition matches; accept when the word ends in an
accepting state. -/
def acceptsFrom (d : DFA S E) : S → List E → Bool
  | s, [] => s ∈ d.final_states
  | s, e :: w =>
    match d.transitions.find? (fun t => decide (t.1 = s ∧ t.2.1 = e)) with
    | some t => acceptsFrom d t.2.2 w
    | none => false

/-- Modelled from the spec: whether the DFA accepts a word, starting at the
initial state. -/
def accepts (d : DFA S E) (w : List E) : Bool := acceptsFrom d d.initial_state w

end Semantics

namespace Partition

variable {T : Type} [DecidableEq T]

/-- The span (start, stop) of a set identifier. -/
def spanOf (p : Partition T) (s : Nat) : Nat × Nat := p.spans.getD s (0, 0)

/-- Position i lies inside the span of set s. -/
def inSpan (p : Partition T) (s : Nat) (i : Nat) : Prop :=
  (spanOf p s).1 ≤ i ∧ i < (spanOf p s).2

/-- An element currently sits in the marked region of its owning set, i.e.
it has been marked since that set was last split. -/
def inMarkedRegion (p : Partition T) (x : T) : Prop :=
  ∃ s i, lookupA p.owners x = some s ∧ lookupA p.locations x = some i ∧
    i < (spanOf p s).1 + p.marked.getD s 0

/-- Structural well-formedness of a partition state, independent of the
touched worklist: the backing array has distinct elements; spans are
in-bounds ranges that cover the array disjointly; the location index maps
each element to the position holding it; the owner index maps each element
to the set whose span contains its position; the marked counts fit inside
the spans. -/
structure InvCore (p : Partition T) : Prop where
  nodup : p.elements.Nodup
  marked_len : p.marked.length = p.spans.length
  span_stop : ∀ s, s < p.spans.length → (spanOf p s).2 ≤ p.elements.length
  span_le : ∀ s, s < p.spans.length → (spanOf p s).1 ≤ (spanOf p s).2
  cover : ∀ i, i < p.elements.length → ∃ s, s < p.spans.length ∧ inSpan p s i
  disj : ∀ s t i, s < p.spans.length → t < p.spans.length →
    inSpan p s i → inSpan p t i → s = t
  loc_keys : ∀ x, (lookupA p.locations x).isSome ↔ x ∈ p.elements
  loc_get : ∀ x i, lookupA p.locations x = some i → p.elements.get? i = some x
  own_keys : ∀ x, (lookupA p.owners x).isSome ↔ x ∈ p.elements
  own_span : ∀ x s i, lookupA p.owners x = some s →
    lookupA p.locations x = some i → s < p.spans.length ∧ inSpan p s i
  marked_le : ∀ s, s < p.spans.length →
    (spanOf p s).1 + p.marked.getD s 0 ≤ (spanOf p s).2

/-- Full well-formedness: the structural part plus consistency of the
touched worklist with the marked counts. -/
structure Inv (p : Partition T) extends InvCore p : Prop where
  touched_lt : ∀ s, s ∈ p.touched → s < p.spans.length
  touched_pos : ∀ s, s ∈ p.touched → 0 < p.marked.getD s 0
  pos_touched : ∀ s, 0 < p.marked.getD s 0 → s ∈ p.touched
  touched_nodup : p.touched.Nodup

/-- Partition states reachable from Partition::new on a given universe by
mark operations that satisfy their precondition and by splits. -/
inductive ReachableFrom (u : List T) : Partition T → Prop where
  | base : ReachableFrom u (new u)
  | mark {p p' : Partition T} {x : T} :
      ReachableFrom u p → mark p x = some p' → ReachableFrom u p'
  | split {p : Partition T} : ReachableFrom u p → ReachableFrom u (split p)

/-- What one split-loop iteration does to a touched set s (the claim C6
property): with mid the marked boundary of the span (st, en), a fully
marked set is left unchanged except that its mark count is cleared;
otherwise the span is divided at mid into the marked prefix (st, mid) and
unmarked remainder (mid, en), both non-empty, one of them kept at
identifier s and the other placed at the freshly allocated identifier (the
old set count), the fresh half no larger than the kept half, the fresh
half's elements re-owned to the fresh identifier, and the mark count
cleared. -/
def SplitStepSpec (p : Partition T) (s : Nat) : Prop :=
  let st := (spanOf p s).1
  let en := (spanOf p s).2
  let mid := st + p.marked.getD s 0
  let q := splitStep p s
  let s1 := p.spans.length
  (mid = en →
    q.spans = p.spans ∧ q.elements = p.elements ∧ q.owners = p.owners ∧
    q.locations = p.locations ∧ q.marked = p.marked.set s 0) ∧
  (mid < en →
    st < mid ∧ mid < en ∧
    q.spans.length = p.spans.length + 1 ∧
    ((spanOf q s = (st, mid) ∧ spanOf q s1 = (mid, en)) ∨
      (spanOf q s = (mid, en) ∧ spanOf q s1 = (st, mid))) ∧
    (spanOf q s1).2 - (spanOf q s1).1 ≤ (spanOf q s).2 - (spanOf q s).1 ∧
    q.marked.getD s 0 = 0 ∧ q.marked.getD s1 0 = 0 ∧
    (∀ x i, lookupA p.locations x = some i →
      lookupA q.owners x =
        (if (spanOf q s1).1 ≤ i ∧ i < (spanOf q s1).2
         then some s1 else lookupA p.owners x)))

/-- The claim C7 property of mark on a well-formed partition state: mark
fails exactly on an element outside the universe or already marked since
its set was last split; a successful mark adds exactly its element to the
marked region; a split clears the whole marked region. -/
def MarkSpec (p : Partition T) (x : T) : Prop :=
  (mark p x = none ↔ x ∉ p.elements ∨ inMarkedRegion p x) ∧
  (∀ p', mark p x = some p' →
    ∀ y, inMarkedRegion p' y ↔ y = x ∨ inMarkedRegion p y) ∧
  (∀ y, ¬ inMarkedRegion (split p) y)

/-- The claim C8 property at a partition state: spans are pairwise
disjoint, contiguous, in-bounds and cover the backing array; the backing
array is a permutation of the construction universe; the location index
maps every element to the array position holding it; the owner index maps
every element to a set whose span contains its position. -/
def InvariantSpec (u : List T) (p : Partition T) : Prop :=
  p.elements.Perm u ∧
  (∀ i, i < p.elements.length → ∃ s, s < p.spans.length ∧ inSpan p s i) ∧
  (∀ s t i, s < p.spans.length → t < p.spans.length →
    inSpan p s i → inSpan p t i → s = t) ∧
  (∀ s, s < p.spans.length →
    (spanOf p s).1 ≤ (spanOf p s).2 ∧ (spanOf p s).2 ≤ p.elements.length) ∧
  (∀ x, x ∈ p.elements →
    ∃ i, lookupA p.locations x = some i ∧ p.elements.get? i = some x) ∧
  (∀ x, x ∈ p.elements →
    ∃ s i, lookupA p.owners x = some s ∧ s < p.spans.length ∧
      lookupA p.locations x = some i ∧ inSpan p s i)

end Partition

section PruneSpecs

variable {S E : Type} [DecidableEq S] [DecidableEq E]

/-- The claim C2 description of a successful prune result: the initial
state is kept; finals and transitions are subsequences of the originals;
the finals are exactly the original finals that are live; the transitions
are exactly the original transitions whose source and destination are both
live. -/
def PruneSpec (d P : DFA S E) : Prop :=
  P.initial_state = d.initial_state ∧
  P.final_states.Sublist d.final_states ∧
  P.transitions.Sublist d.transitions ∧
  (∀ q, q ∈ P.final_states ↔ q ∈ d.final_states ∧ Live d q) ∧
  (∀ t, t ∈ P.transitions ↔ t ∈ d.transitions ∧ Live d t.1 ∧ Live d t.2.2)

end PruneSpecs

section Examples

/-- Failing input for claim C1: a valid single-state DFA accepting only the
empty string. It is its own prune result, yet minimize aborts on it. -/
def exC1 : DFA Nat Nat := ⟨7, [7], []⟩

/-- Failing input for claim C3: the same shape with different state names. -/
def exC3 : DFA Nat Nat := ⟨0, [0], []⟩

/-- Counterexample input for claim C4: two transitions with two distinct
labels, so label seeding leaves two cord-sets. -/
def exC4 : DFA Nat Nat := ⟨0, [1], [(0, 0, 1), (0, 1, 1)]⟩

/-- Counterexample input for claim C5: the transition list contains the
duplicated triple (0,0,0). Seeding the label-0 cord group marks (1,0,1),
whose swap with the boundary element redirects the shared location entry of
the two (0,0,0) occurrences into the marked region, so the second mark of
(0,0,0) violates the mark precondition. In Rust this panic fires under any
HashMap iteration order that seeds label 0 first; the embedding's concrete
label order realizes it deterministically. -/
def exC5 : DFA Nat Nat :=
  ⟨1, [1], [(1, 0, 1), (2, 1, 2), (0, 0, 0), (0, 0, 0), (3, 1, 3)]⟩

/-- The wikipedia DFA from the repository's tests, used as witness input. -/
def exWiki : DFA Nat Nat :=
  ⟨0, [2, 3, 4],
    [(0, 0, 1), (0, 1, 2), (1, 0, 0), (1, 1, 3), (2, 0, 4), (2, 1, 5),
     (3, 0, 4), (3, 1, 5), (4, 0, 4), (4, 1, 5), (5, 0, 5), (5, 1, 5)]⟩

/-- The pruned wikipedia DFA: state 5 cannot reach an accepting state, so
it and its five incident transitions are gone. -/
def exWikiPruned : DFA Nat Nat :=
  ⟨0, [2, 3, 4],
    [(0, 0, 1), (0, 1, 2), (1, 0, 0), (1, 1, 3), (2, 0, 4), (3, 0, 4),
     (4, 0, 4)]⟩

/-- A concrete partition state for the C6 witness: universe of four
numbers with 10 marked, obtained from a successful mark. -/
def exPart6 : Partition Nat :=
  ((Partition.new [10, 20, 30, 40]).mark 10).getD (Partition.new [])

/-- A concrete partition state for the C7 witness. -/
def exPart7 : Partition Nat := Partition.new [5, 6]

/-- A concrete partition state for the C8 witness: mark 1 then split. -/
def exPart8 : Partition Nat :=
  (((Partition.new [3, 1, 2]).mark 1).getD (Partition.new [])).split

end Examples

section TableLemmas

variable {τ κ ν : Type} [DecidableEq κ]

theorem lookupG_pushG (m : List (κ × List ν)) (k x : κ) (v : ν) :
    lookupG (pushG m k v) x =
      if k = x then lookupG m x ++ [v] else lookupG m x := by
  by_cases hkx : k = x
  · subst hkx
    rw [if_pos rfl, pushG]
    cases hl : lookupA m k with
    | none => rw [lookupG, lookupG, lookupA_insertA_self, hl]; rfl
    | some l => rw [lookupG, lookupG, lookupA_insertA_self, hl]; rfl
  · rw [if_neg hkx, pushG]
    cases hl : lookupA m k with
    | none => rw [lookupG, lookupG, lookupA_insertA_ne _ _ _ _ (fun h => hkx h.symm)]
    | some l => rw [lookupG, lookupG, lookupA_insertA_ne _ _ _ _ (fun h => hkx h.symm)]

theorem lookupG_foldl_pushG (keyF : τ → κ) (valF : τ → ν) (k : κ) :
    ∀ (input : List τ) (m : List (κ × List ν)),
      lookupG (input.foldl (fun m t => pushG m (keyF t) (valF t)) m) k =
        lookupG m k ++ (input.filter (fun t => decide (keyF t = k))).map valF := by
  intro input
  induction input with
  | nil => intro m; simp
  | cons t rest ih =>
    intro m
    rw [List.foldl_cons, ih, lookupG_pushG]
    by_cases hk : keyF t = k
    · rw [if_pos hk, List.filter_cons_of_pos (by simp [hk]), List.map_cons,
        List.append_assoc, List.singleton_append]
    · rw [if_neg hk, List.filter_cons_of_neg (by simp [hk])]

theorem lookupG_groupByTo (input : List τ) (keyF : τ → κ) (valF : τ → ν)
    (k : κ) :
    lookupG (groupByTo input keyF valF) k =
      (input.filter (fun t => decide (keyF t = k))).map valF := by
  rw [groupByTo, lookupG_foldl_pushG]
  rfl

end TableLemmas

/-- C10: for every Relation Table (sequence of triples), the groupings by
first, second and third coordinate are total functions of the table, and
each key's list holds exactly the remaining pairs of the triples carrying
that key, in the original relative order, duplicates preserved; a key
absent from the view yields the empty list. -/
theorem c10_group_views {A B C : Type} [DecidableEq A] [DecidableEq B]
    [DecidableEq C] (ts : List (A × B × C)) :
    (∀ a, lookupG (byA ts) a =
      (ts.filter (fun t => decide (t.1 = a))).map (fun t => (t.2.1, t.2.2))) ∧
    (∀ b, lookupG (byB ts) b =
      (ts.filter (fun t => decide (t.2.1 = b))).map (fun t => (t.1, t.2.2))) ∧
    (∀ c, lookupG (byC ts) c =
      (ts.filter (fun t => decide (t.2.2 = c))).map (fun t => (t.1, t.2.1))) :=
  ⟨fun a => lookupG_groupByTo ts _ _ a,
   fun b => lookupG_groupByTo ts _ _ b,
   fun c => lookupG_groupByTo ts _ _ c⟩

/-- C1 evidence: the single-state DFA exC1 accepts the empty string and is
returned unchanged by prune, but minimize on it aborts (none models the
Rust panic: its final state 7 is missing from the blocks universe, which is
built only from transition endpoints), so minimize(prune(D)) cannot agree
with D on any string, contradicting the language-preservation guarantee. -/
theorem c1_minimize_prune_aborts :
    pruneUnreachable exC1 = some exC1 ∧ accepts exC1 [] = true ∧
      minimize exC1 = none := by
  refine ⟨by decide, by decide, by decide⟩

/-- C3 evidence: exC3 is a valid pruned single-state DFA whose initial
state appears in no transition, and minimize on it aborts (none models the
panic when marking final state 0, a key absent from the blocks universe)
instead of returning a DFA. -/
theorem c3_minimize_aborts_on_isolated_initial :
    pruneUnreachable exC3 = some exC3 ∧ minimize exC3 = none := by
  refine ⟨by decide, by decide⟩

/-- C4 counterexample: on exC4 the label seeding leaves two cord-sets (one
per label, with one freshly created during seeding), yet the refinement
loop is entered with cord cursor c = 0, which is neither the number of
cord-sets existing after seeding nor the number created by it; the block
cursor is the literal 1. -/
theorem c4_cursor_counterexample :
    (minimizeSeedCords exC4).map Partition.size = some 2 ∧
      minimizeLoopStart = (1, 0) ∧
      minimizeLoopStart.2 ≠ 2 ∧ minimizeLoopStart.2 ≠ 2 - 1 := by
  refine ⟨by decide, rfl, by decide, by decide⟩

/-- C4 amended: the refinement loop of minimize starts with the literal
cursors b = 1 and c = 0: the block cursor starts just past the initial
block-set, while the cord cursor starts at the very first cord-set, so
every seeded cord-set is processed as a splitter rather than skipped. -/
theorem c4_loop_cursors_start_at_one_zero : minimizeLoopStart = (1, 0) := rfl

/-- C5 counterexample: exC5's transition sequence contains a duplicated
triple, and minimize on it aborts during cord seeding (none models the
Rust panic: both occurrences of (0,0,0) share one location entry, an
unrelated swap redirects it into the marked region, and the second mark of
the triple then violates the mark precondition). -/
theorem c5_duplicate_seeding_aborts :
    ¬ exC5.transitions.Nodup ∧ minimizeSeedCords exC5 = none ∧
      minimize exC5 = none := by
  refine ⟨by decide, by decide, by decide⟩

section ListHelpers

variable {T : Type}

theorem set_self : ∀ (l : List T) (i : Nat) (a : T),
    l.get? i = some a → l.set i a = l
  | [], _, _, h => by cases h
  | x :: xs, 0, a, h => by
    rw [List.get?_cons_zero] at h
    injection h with h
    rw [List.set, h]
  | x :: xs, i + 1, a, h => by
    rw [List.get?_cons_succ] at h
    rw [List.set, set_self xs i a h]

theorem set_cons_perm : ∀ (xs : List T) (m : Nat) (a b : T),
    xs.get? m = some b → (b :: xs.set m a).Perm (a :: xs)
  | [], _, _, _, h => by cases h
  | y :: ys, 0, a, b, h => by
    rw [List.get?_cons_zero] at h
    injection h with h
    subst h
    rw [List.set]
    exact List.Perm.swap a y ys
  | y :: ys, m + 1, a, b, h => by
    rw [List.get?_cons_succ] at h
    rw [List.set]
    exact (List.Perm.swap y b _).trans
      (((set_cons_perm ys m a b h).cons y).trans (List.Perm.swap a y ys))

theorem swap_perm : ∀ (l : List T) (i j : Nat) (a b : T),
    l.get? i = some a → l.get? j = some b →
    ((l.set i b).set j a).Perm l
  | [], _, _, _, _, ha, _ => by cases ha
  | x :: xs, 0, 0, a, b, ha, _ => by
    rw [List.get?_cons_zero] at ha
    injection ha with ha
    rw [List.set, List.set, ← ha]
  | x :: xs, 0, m + 1, a, b, ha, hb => by
    rw [List.get?_cons_zero] at ha
    rw [List.get?_cons_succ] at hb
    injection ha with ha
    rw [List.set, List.set, ha]
    exact set_cons_perm xs m a b hb
  | x :: xs, n + 1, 0, a, b, ha, hb => by
    rw [List.get?_cons_succ] at ha
    rw [List.get?_cons_zero] at hb
    injection hb with hb
    rw [List.set, List.set, hb]
    exact set_cons_perm xs n b a ha
  | x :: xs, n + 1, m + 1, a, b, ha, hb => by
    rw [List.get?_cons_succ] at ha hb
    rw [List.set, List.set]
    exact (swap_perm xs n m a b ha hb).cons x

theorem get?_nodup_inj {l : List T} (hn : l.Nodup) {i j : Nat} {a : T}
    (hi : l.get? i = some a) (hj : l.get? j = some a) : i = j := by
  have hlen : i < l.length := by
    rcases List.get?_eq_some.mp hi with ⟨h, _⟩
    exact h
  exact List.get?_inj hlen hn (hi.trans hj.symm)

theorem mem_enumFromL {y : T} : ∀ (l : List T) (n k : Nat),
    (k, y) ∈ enumFromL n l ↔ ∃ m, k = n + m ∧ l.get? m = some y
  | [], n, k => by simp [enumFromL]
  | x :: xs, n, k => by
    rw [enumFromL, List.mem_cons]
    constructor
    · intro h
      rcases h with h | h
      · rw [Prod.mk.injEq] at h
        exact ⟨0, by omega, by rw [List.get?_cons_zero, h.2]⟩
      · rcases (mem_enumFromL xs (n + 1) k).mp h with ⟨m, hm, hg⟩
        exact ⟨m + 1, by omega, by rw [List.get?_cons_succ]; exact hg⟩
    · rintro ⟨m, hk, hg⟩
      cases m with
      | zero =>
        rw [List.get?_cons_zero] at hg
        injection hg with hg
        exact Or.inl (by rw [Prod.mk.injEq]; exact ⟨by omega, hg.symm⟩)
      | succ m =>
        rw [List.get?_cons_succ] at hg
        exact Or.inr ((mem_enumFromL xs (n + 1) k).mpr ⟨m, by omega, hg⟩)

theorem enumFromL_map_snd : ∀ (n : Nat) (l : List T),
    (enumFromL n l).map (fun p => p.2) = l
  | _, [] => rfl
  | n, x :: xs => by rw [enumFromL, List.map_cons, enumFromL_map_snd (n + 1) xs]

end ListHelpers

section FoldLookup

variable {T : Type} [DecidableEq T]

theorem lookup_foldl_insertA_pairs (pairs : List (Nat × T))
    (hn : (pairs.map (fun p => p.2)).Nodup) (x : T) :
    ∀ acc, lookupA (pairs.foldl (fun m p => insertA m p.2 p.1) acc) x =
      match pairs.find? (fun p => decide (p.2 = x)) with
      | some q => some q.1
      | none => lookupA acc x := by
  induction pairs with
  | nil => intro acc; rfl
  | cons p ps ih =>
    intro acc
    rw [List.map_cons, List.nodup_cons] at hn
    rw [List.foldl_cons, ih hn.2]
    by_cases hpx : p.2 = x
    · rw [List.find?_cons_of_pos _ (by simp [hpx])]
      have hfind : ps.find? (fun q => decide (q.2 = x)) = none := by
        rw [List.find?_eq_none]
        intro q hq
        simp only [decide_eq_true_eq]
        intro hqx
        apply hn.1
        rw [hpx, ← hqx]
        exact List.mem_map.mpr ⟨q, hq, rfl⟩
      rw [hfind]
      rw [hpx, lookupA_insertA_self]
    · rw [List.find?_cons_of_neg _ (by simp [hpx])]
      cases hf : ps.find? (fun q => decide (q.2 = x)) with
      | some q => rfl
      | none => rw [lookupA_insertA_ne _ _ _ _ (fun h => hpx h.symm)]

theorem lookup_foldl_insertA_const (x : T) : ∀ (l : List T) (acc : List (T × Nat)),
    lookupA (l.foldl (fun m e => insertA m e 0) acc) x =
      if x ∈ l then some 0 else lookupA acc x := by
  intro l
  induction l with
  | nil => intro acc; simp
  | cons e es ih =>
    intro acc
    rw [List.foldl_cons, ih]
    by_cases hx : x ∈ es
    · rw [if_pos hx, if_pos (List.mem_cons_of_mem e hx)]
    · rw [if_neg hx]
      by_cases hxe : x = e
      · rw [if_pos (hxe ▸ List.mem_cons_self e es), hxe, lookupA_insertA_self]
      · rw [if_neg (by simp [hxe, hx]), lookupA_insertA_ne _ _ _ _ hxe]

theorem new_locations_lookup {u : List T} (hu : u.Nodup) (x : T) :
    lookupA (Partition.new u).locations x =
      match (enumFromL 0 u).find? (fun p => decide (p.2 = x)) with
      | some q => some q.1
      | none => none := by
  have h := lookup_foldl_insertA_pairs (enumFromL 0 u)
    (by rw [enumFromL_map_snd]; exact hu) x []
  rw [Partition.new] at *
  simpa using h

theorem new_loc_get {u : List T} (hu : u.Nodup) (x : T) (i : Nat)
    (h : lookupA (Partition.new u).locations x = some i) : u.get? i = some x := by
  rw [new_locations_lookup hu] at h
  cases hf : (enumFromL 0 u).find? (fun p => decide (p.2 = x)) with
  | none => rw [hf] at h; cases h
  | some q =>
    rw [hf] at h
    injection h with h
    have hq : (q.1, q.2) ∈ enumFromL 0 u := List.mem_of_find?_eq_some hf
    have hqx : q.2 = x := by simpa using List.find?_some hf
    rcases (mem_enumFromL u 0 q.1).mp hq with ⟨m, hm, hg⟩
    have hqm : q.1 = m := by omega
    rw [← h, hqm, ← hqx]
    exact hg

theorem new_loc_keys {u : List T} (hu : u.Nodup) (x : T) :
    (lookupA (Partition.new u).locations x).isSome ↔ x ∈ u := by
  rw [new_locations_lookup hu]
  cases hf : (enumFromL 0 u).find? (fun p => decide (p.2 = x)) with
  | none =>
    simp only [Option.isSome_none, Bool.false_eq_true, false_iff]
    intro hx
    rcases List.get?_of_mem hx with ⟨n, hn⟩
    have hmem : (n, x) ∈ enumFromL 0 u := (mem_enumFromL u 0 n).mpr ⟨n, by omega, hn⟩
    have hnone := List.find?_eq_none.mp hf _ hmem
    simp at hnone
  | some q =>
    simp only [Option.isSome_some, true_iff]
    have hq : (q.1, q.2) ∈ enumFromL 0 u := List.mem_of_find?_eq_some hf
    have hqx : q.2 = x := by simpa using List.find?_some hf
    rcases (mem_enumFromL u 0 q.1).mp hq with ⟨m, _, hg⟩
    rw [← hqx]
    exact List.get?_mem hg

theorem new_own_lookup (u : List T) (x : T) :
    lookupA (Partition.new u).owners x = if x ∈ u then some 0 else none := by
  have h := lookup_foldl_insertA_const x u []
  rw [Partition.new]
  simpa using h

theorem inv_new {u : List T} (hu : u.Nodup) : Partition.Inv (Partition.new u) := by
  have hspan : ∀ s, s < (Partition.new u).spans.length → s = 0 := by
    intro s hs
    simp only [Partition.new, List.length_singleton] at hs
    omega
  refine ⟨⟨hu, rfl, ?_, ?_, ?_, ?_, fun x => new_loc_keys hu x,
    fun x i h => new_loc_get hu x i h, ?_, ?_, ?_⟩, ?_, ?_, ?_, ?_⟩
  · intro s hs
    rw [hspan s hs]
    simp [Partition.spanOf, Partition.new]
  · intro s hs
    rw [hspan s hs]
    simp [Partition.spanOf, Partition.new]
  · intro i hi
    refine ⟨0, by simp [Partition.new], ?_⟩
    simp only [Partition.new] at hi
    simp [Partition.inSpan, Partition.spanOf, Partition.new]
    simpa using hi
  · intro s t i hs ht _ _
    rw [hspan s hs, hspan t ht]
  · intro x
    rw [new_own_lookup]
    by_cases hx : x ∈ u <;> simp [hx, Partition.new]
  · intro x s i hown hloc
    rw [new_own_lookup] at hown
    by_cases hx : x ∈ u
    · rw [if_pos hx] at hown
      have hs0 : s = 0 := by simpa using hown.symm
      have hg := new_loc_get hu x i hloc
      have hi : i < u.length := by
        rcases List.get?_eq_some.mp hg with ⟨h, _⟩
        exact h
      subst hs0
      refine ⟨by simp [Partition.new], ?_, ?_⟩ <;>
        simp [Partition.inSpan, Partition.spanOf, Partition.new, hi]
    · rw [if_neg hx] at hown; cases hown
  · intro s hs
    rw [hspan s hs]
    simp [Partition.spanOf, Partition.new]
  · intro s hs
    simp [Partition.new] at hs
  · intro s hs
    simp [Partition.new] at hs
  · intro s hpos
    have : (Partition.new u).marked.getD s 0 = 0 := by
      simp only [Partition.new]
      cases s <;> simp
    omega
  · simp [Partition.new]

end FoldLookup

section GetDHelpers

variable {X : Type}

theorem getD_get? (l : List X) (n : Nat) (d : X) :
    l.getD n d = (l.get? n).getD d := List.getD_eq_get? l n d

theorem getD_set_self (l : List X) (i : Nat) (v d : X) (h : i < l.length) :
    (l.set i v).getD i d = v := by
  rw [getD_get?, List.get?_set_eq_of_lt _ h]
  rfl

theorem getD_set_ne (l : List X) (i k : Nat) (v d : X) (h : i ≠ k) :
    (l.set i v).getD k d = l.getD k d := by
  rw [getD_get?, List.get?_set_ne _ _ h, getD_get?]

theorem getD_append_lt (l : List X) (v d : X) (k : Nat) (h : k < l.length) :
    (l ++ [v]).getD k d = l.getD k d := by
  rw [getD_get?, List.get?_append h, getD_get?]

theorem getD_append_len (l : List X) (v d : X) :
    (l ++ [v]).getD l.length d = v := by
  rw [getD_get?, List.get?_concat_length]
  rfl

theorem getD_of_le (l : List X) (k : Nat) (d : X) (h : l.length ≤ k) :
    l.getD k d = d := by
  rw [getD_get?, List.get?_eq_none.mpr h]
  rfl

end GetDHelpers

namespace Partition

variable {T : Type} [DecidableEq T]

theorem mark_none_of_missing {p : Partition T} {x : T}
    (h : lookupA p.owners x = none ∨ lookupA p.locations x = none) :
    mark p x = none := by
  cases ho : lookupA p.owners x with
  | none => simp [mark, ho]
  | some ow =>
    cases hl : lookupA p.locations x with
    | none => simp [mark, ho, hl]
    | some i =>
      rw [ho] at h
      rw [hl] at h
      rcases h with h | h <;> cases h

theorem mark_none_of_marked {p : Partition T} {x : T} {ow i : Nat}
    (hown : lookupA p.owners x = some ow)
    (hloc : lookupA p.locations x = some i)
    (hlt : i < (p.spans.getD ow (0, 0)).1 + p.marked.getD ow 0) :
    mark p x = none := by
  simp only [mark, hown, hloc]
  rw [if_pos hlt]

theorem mark_of_no_swap {p : Partition T} {x : T} {ow i : Nat}
    (hown : lookupA p.owners x = some ow)
    (hloc : lookupA p.locations x = some i)
    (heq : i = (p.spans.getD ow (0, 0)).1 + p.marked.getD ow 0) :
    mark p x = some
      { p with
        touched := if p.marked.getD ow 0 = 0 then ow :: p.touched else p.touched
        marked := p.marked.set ow (p.marked.getD ow 0 + 1) } := by
  simp only [mark, hown, hloc]
  rw [if_neg (by omega), if_neg (by omega)]

theorem mark_of_swap {p : Partition T} {x target : T} {ow i : Nat}
    (hown : lookupA p.owners x = some ow)
    (hloc : lookupA p.locations x = some i)
    (hgt : (p.spans.getD ow (0, 0)).1 + p.marked.getD ow 0 < i)
    (hi : p.elements.get? i = some x)
    (hj : p.elements.get? ((p.spans.getD ow (0, 0)).1 + p.marked.getD ow 0) =
      some target) :
    mark p x = some
      { p with
        elements := (p.elements.set i target).set
          ((p.spans.getD ow (0, 0)).1 + p.marked.getD ow 0) x
        locations := insertA (insertA p.locations x
          ((p.spans.getD ow (0, 0)).1 + p.marked.getD ow 0)) target i
        touched := if p.marked.getD ow 0 = 0 then ow :: p.touched else p.touched
        marked := p.marked.set ow (p.marked.getD ow 0 + 1) } := by
  simp only [mark, hown, hloc]
  rw [if_neg (by omega), if_pos hgt, hi, hj]

theorem InvCore.loc_lt {p : Partition T} (hp : InvCore p) {x : T} {i : Nat}
    (h : lookupA p.locations x = some i) : i < p.elements.length := by
  rcases List.get?_eq_some.mp (hp.loc_get x i h) with ⟨hh, _⟩
  exact hh

theorem InvCore.loc_unique {p : Partition T} (hp : InvCore p) {x : T}
    {i k : Nat} (hl : lookupA p.locations x = some i)
    (hg : p.elements.get? k = some x) : k = i :=
  get?_nodup_inj hp.nodup hg (hp.loc_get x i hl)

theorem InvCore.owner_of_span {p : Partition T} (hp : InvCore p) {y : T}
    {s t k : Nat} (hown : lookupA p.owners y = some s)
    (hloc : lookupA p.locations y = some k) (ht : t < p.spans.length)
    (hk : inSpan p t k) : s = t := by
  rcases hp.own_span y s k hown hloc with ⟨hs, hins⟩
  exact hp.disj s t k hs ht hins hk

theorem mark_eq_none_iff {p : Partition T} (hp : InvCore p) (x : T) :
    mark p x = none ↔ x ∉ p.elements ∨ inMarkedRegion p x := by
  cases ho : lookupA p.owners x with
  | none =>
    have hx : x ∉ p.elements := by
      rw [← hp.own_keys x, ho]
      simp
    rw [mark_none_of_missing (Or.inl ho)]
    simp [hx]
  | some ow =>
    have hxm : x ∈ p.elements := (hp.own_keys x).mp (by rw [ho]; rfl)
    cases hl : lookupA p.locations x with
    | none => exact absurd ((hp.loc_keys x).mpr hxm) (by rw [hl]; simp)
    | some i =>
      by_cases hlt : i < (p.spans.getD ow (0, 0)).1 + p.marked.getD ow 0
      · rw [mark_none_of_marked ho hl hlt]
        constructor
        · intro _
          exact Or.inr ⟨ow, i, ho, hl, hlt⟩
        · intro _
          rfl
      · have hni : ¬ inMarkedRegion p x := by
          rintro ⟨s, k, hs, hk, hklt⟩
          rw [ho] at hs
          injection hs with hs
          rw [hl] at hk
          injection hk with hk
          subst hs
          subst hk
          exact hlt hklt
        constructor
        · intro hnone
          exfalso
          rcases Nat.lt_or_ge ((p.spans.getD ow (0, 0)).1 +
            p.marked.getD ow 0) i with hgt | hge
          · have hjlen : (p.spans.getD ow (0, 0)).1 + p.marked.getD ow 0 <
                p.elements.length := lt_trans hgt (hp.loc_lt hl)
            rcases List.get?_eq_some.mpr
              ⟨hjlen, rfl⟩ with htj
            rw [mark_of_swap ho hl hgt (hp.loc_get _ _ hl) htj] at hnone
            cases hnone
          · have : i = (p.spans.getD ow (0, 0)).1 + p.marked.getD ow 0 := by
              omega
            rw [mark_of_no_swap ho hl this] at hnone
            cases hnone
        · intro hor
          rcases hor with hx | hr
          · exact absurd hxm hx
          · exact absurd hr hni

theorem marked_set_getD {p : Partition T} {ow : Nat}
    (hlen : ow < p.marked.length) (v : Nat) (s : Nat) :
    (p.marked.set ow v).getD s 0 = if s = ow then v else p.marked.getD s 0 := by
  by_cases h : s = ow
  · subst h
    rw [if_pos rfl, getD_set_self _ _ _ _ hlen]
  · rw [if_neg h, getD_set_ne _ _ _ _ _ (fun hh => h hh.symm)]

theorem mark_touched_ok {p : Partition T} (hp : Inv p) {ow : Nat}
    (how : ow < p.spans.length) :
    (∀ s, s ∈ (if p.marked.getD ow 0 = 0 then ow :: p.touched
        else p.touched) → s < p.spans.length) ∧
    (∀ s, s ∈ (if p.marked.getD ow 0 = 0 then ow :: p.touched
        else p.touched) →
      0 < (p.marked.set ow (p.marked.getD ow 0 + 1)).getD s 0) ∧
    (∀ s, 0 < (p.marked.set ow (p.marked.getD ow 0 + 1)).getD s 0 →
      s ∈ (if p.marked.getD ow 0 = 0 then ow :: p.touched else p.touched)) ∧
    (if p.marked.getD ow 0 = 0 then ow :: p.touched else p.touched).Nodup := by
  have hmlen : ow < p.marked.length := by
    rw [hp.marked_len]
    exact how
  have hget := marked_set_getD hmlen (p.marked.getD ow 0 + 1)
  by_cases hmk : p.marked.getD ow 0 = 0
  · rw [if_pos hmk]
    refine ⟨?_, ?_, ?_, ?_⟩
    · intro s hs
      rcases List.mem_cons.mp hs with rfl | hs
      · exact how
      · exact hp.touched_lt s hs
    · intro s hs
      rw [hget s]
      rcases List.mem_cons.mp hs with rfl | hs
      · rw [if_pos rfl]
        omega
      · by_cases hsw : s = ow
        · rw [if_pos hsw]
          omega
        · rw [if_neg hsw]
          exact hp.touched_pos s hs
    · intro s hs
      rw [hget s] at hs
      by_cases hsw : s = ow
      · exact hsw ▸ List.mem_cons_self _ _
      · rw [if_neg hsw] at hs
        exact List.mem_cons_of_mem _ (hp.pos_touched s hs)
    · refine List.nodup_cons.mpr ⟨?_, hp.touched_nodup⟩
      intro hmem
      have := hp.touched_pos ow hmem
      omega
  · rw [if_neg hmk]
    refine ⟨hp.touched_lt, ?_, ?_, hp.touched_nodup⟩
    · intro s hs
      rw [hget s]
      by_cases hsw : s = ow
      · rw [if_pos hsw]
        omega
      · rw [if_neg hsw]
        exact hp.touched_pos s hs
    · intro s hs
      rw [hget s] at hs
      by_cases hsw : s = ow
      · subst hsw
        exact hp.pos_touched s (by omega)
      · rw [if_neg hsw] at hs
        exact hp.pos_touched s hs

theorem mark_some_spec {p p' : Partition T} {x : T} (hp : Inv p)
    (hm : mark p x = some p') :
    Inv p' ∧ p'.elements.Perm p.elements ∧ p'.spans = p.spans ∧
    p'.owners = p.owners ∧
    (∀ y, inMarkedRegion p' y ↔ y = x ∨ inMarkedRegion p y) := by
  cases ho : lookupA p.owners x with
  | none => rw [mark_none_of_missing (Or.inl ho)] at hm; cases hm
  | some ow =>
  cases hl : lookupA p.locations x with
  | none => rw [mark_none_of_missing (Or.inr hl)] at hm; cases hm
  | some i =>
  have hgi : p.elements.get? i = some x := hp.loc_get x i hl
  obtain ⟨how, hins⟩ := hp.own_span x ow i ho hl
  have hmlen : ow < p.marked.length := by rw [hp.marked_len]; exact how
  have hilen : i < p.elements.length := hp.loc_lt hl
  by_cases hlt : i < (p.spans.getD ow (0, 0)).1 + p.marked.getD ow 0
  · rw [mark_none_of_marked ho hl hlt] at hm
    cases hm
  obtain ⟨htl, htp, hpt, htn⟩ := mark_touched_ok hp how
  have hmget := marked_set_getD hmlen (p.marked.getD ow 0 + 1)
  have hins' : (p.spans.getD ow (0, 0)).1 ≤ i ∧
      i < (p.spans.getD ow (0, 0)).2 := by
    simpa only [inSpan, spanOf] using hins
  have hjen : (p.spans.getD ow (0, 0)).1 + p.marked.getD ow 0 <
      (p.spans.getD ow (0, 0)).2 := by omega
  rcases Nat.lt_or_ge ((p.spans.getD ow (0, 0)).1 + p.marked.getD ow 0) i
    with hgt | hge
  · -- swap case: the element moves to the boundary position
    have hjlen : (p.spans.getD ow (0, 0)).1 + p.marked.getD ow 0 <
        p.elements.length := lt_trans hgt hilen
    have htj : p.elements.get? ((p.spans.getD ow (0, 0)).1 +
        p.marked.getD ow 0) =
        some (p.elements.get ⟨_, hjlen⟩) := List.get?_eq_some.mpr ⟨hjlen, rfl⟩
    set target := p.elements.get
      ⟨(p.spans.getD ow (0, 0)).1 + p.marked.getD ow 0, hjlen⟩ with htarget
    have hne : target ≠ x := by
      intro h
      rw [h] at htj
      have := hp.loc_unique hl htj
      omega
    rw [mark_of_swap ho hl hgt hgi htj] at hm
    injection hm with hm
    subst hm
    set st := (p.spans.getD ow (0, 0)).1 with hst
    set mk0 := p.marked.getD ow 0 with hmk0
    have hij : st + mk0 ≠ i := by omega
    have hE' : ∀ k, ((p.elements.set i target).set (st + mk0) x).get? k =
        if k = st + mk0 then some x
        else if k = i then some target else p.elements.get? k := by
      intro k
      by_cases hkj : k = st + mk0
      · subst hkj
        rw [if_pos rfl, List.get?_set_eq_of_lt _ (by rw [List.length_set]; exact hjlen)]
      · rw [if_neg hkj, List.get?_set_ne _ _ (fun h => hkj h.symm)]
        by_cases hki : k = i
        · subst hki
          rw [if_pos rfl, List.get?_set_eq_of_lt _ hilen]
        · rw [if_neg hki, List.get?_set_ne _ _ (fun h => hki h.symm)]
    have hL' : ∀ y, lookupA (insertA (insertA p.locations x (st + mk0))
        target i) y =
        if y = target then some i
        else if y = x then some (st + mk0) else lookupA p.locations y := by
      intro y
      by_cases hyt : y = target
      · subst hyt
        rw [if_pos rfl, lookupA_insertA_self]
      · rw [if_neg hyt, lookupA_insertA_ne _ _ _ _ hyt]
        by_cases hyx : y = x
        · subst hyx
          rw [if_pos rfl, lookupA_insertA_self]
        · rw [if_neg hyx, lookupA_insertA_ne _ _ _ _ hyx]
    have hperm : ((p.elements.set i target).set (st + mk0) x).Perm
        p.elements := swap_perm p.elements i (st + mk0) x target hgi htj
    have hlen' : ((p.elements.set i target).set (st + mk0) x).length =
        p.elements.length := by rw [List.length_set, List.length_set]
    have htloc : lookupA p.locations target = some (st + mk0) := by
      have htm : target ∈ p.elements := List.get?_mem htj
      rcases Option.isSome_iff_exists.mp ((hp.loc_keys target).mpr htm)
        with ⟨jt, hjt⟩
      have := hp.loc_unique hjt htj
      rw [← this] at hjt
      exact hjt
    have htown : lookupA p.owners target = some ow := by
      have htm : target ∈ p.elements := List.get?_mem htj
      rcases Option.isSome_iff_exists.mp ((hp.own_keys target).mpr htm)
        with ⟨s, hs⟩
      have heq := hp.owner_of_span hs htloc how
        (by simp only [inSpan, spanOf]; omega)
      rw [heq] at hs
      exact hs
    refine ⟨⟨⟨?_, ?_, ?_, ?_, ?_, ?_, ?_, ?_, ?_, ?_, ?_⟩, htl, htp, hpt, htn⟩,
      hperm, rfl, rfl, ?_⟩
    · exact (hperm.nodup_iff).mpr hp.nodup
    · rw [List.length_set]
      exact hp.marked_len
    · intro s hs
      rw [hlen']
      exact hp.span_stop s hs
    · exact hp.span_le
    · intro k hk
      rw [hlen'] at hk
      exact hp.cover k hk
    · exact hp.disj
    · intro y
      rw [hL' y]
      by_cases hyt : y = target
      · subst hyt
        rw [if_pos rfl]
        simp only [Option.isSome_some, true_iff]
        exact hperm.mem_iff.mpr (List.get?_mem htj)
      · rw [if_neg hyt]
        by_cases hyx : y = x
        · subst hyx
          rw [if_pos rfl]
          simp only [Option.isSome_some, true_iff]
          exact hperm.mem_iff.mpr (List.get?_mem hgi)
        · rw [if_neg hyx, hperm.mem_iff]
          exact hp.loc_keys y
    · intro y k hk
      rw [hL' y] at hk
      by_cases hyt : y = target
      · subst hyt
        rw [if_pos rfl] at hk
        injection hk with hk
        rw [← hk, hE', if_neg (fun h => hij h.symm), if_pos rfl]
      · rw [if_neg hyt] at hk
        by_cases hyx : y = x
        · subst hyx
          rw [if_pos rfl] at hk
          injection hk with hk
          rw [← hk, hE', if_pos rfl]
        · rw [if_neg hyx] at hk
          have hgk := hp.loc_get y k hk
          have hknj : k ≠ st + mk0 := by
            intro h
            rw [h] at hgk
            rw [hgk] at htj
            injection htj with htj
            exact hyt htj
          have hkni : k ≠ i := by
            intro h
            rw [h] at hgk
            rw [hgk] at hgi
            injection hgi with hgi
            exact hyx hgi
          rw [hE', if_neg hknj, if_neg hkni]
          exact hgk
    · intro y
      rw [hperm.mem_iff]
      exact hp.own_keys y
    · intro y s k hs hk
      rw [hL' y] at hk
      by_cases hyt : y = target
      · subst hyt
        rw [if_pos rfl] at hk
        injection hk with hk
        rw [htown] at hs
        injection hs with hs
        subst hs
        subst hk
        exact ⟨how, hins⟩
      · rw [if_neg hyt] at hk
        by_cases hyx : y = x
        · subst hyx
          rw [if_pos rfl] at hk
          injection hk with hk
          rw [ho] at hs
          injection hs with hs
          subst hs
          subst hk
          refine ⟨how, ?_⟩
          simp only [inSpan, spanOf]
          omega
        · rw [if_neg hyx] at hk
          exact hp.own_span y s k hs hk
    · intro s hs
      rw [hmget s]
      by_cases hsw : s = ow
      · subst hsw
        rw [if_pos rfl]
        simp only [spanOf]
        omega
      · rw [if_neg hsw]
        exact hp.marked_le s hs
    · intro y
      constructor
      · rintro ⟨s, k, hs, hk, hklt⟩
        simp only at hs hk
        rw [hL' y] at hk
        by_cases hyt : y = target
        · subst hyt
          rw [if_pos rfl] at hk
          injection hk with hk
          rw [htown] at hs
          injection hs with hs
          exfalso
          rw [hmget] at hklt
          rw [← hs] at hklt
          rw [if_pos rfl] at hklt
          have hklt3 : k < (p.spans.getD ow (0, 0)).1 + (mk0 + 1) := hklt
          omega
        · rw [if_neg hyt] at hk
          by_cases hyx : y = x
          · exact Or.inl hyx
          · rw [if_neg hyx] at hk
            refine Or.inr ⟨s, k, hs, hk, ?_⟩
            rw [hmget] at hklt
            by_cases hsw : s = ow
            · rw [if_pos hsw] at hklt
              have hgk := hp.loc_get y k hk
              have hknj : k ≠ st + mk0 := by
                intro h
                rw [h] at hgk
                rw [hgk] at htj
                injection htj with htj
                exact hyt htj
              have hklt3 : k < (p.spans.getD ow (0, 0)).1 + (mk0 + 1) := by
                rw [hsw] at hklt
                exact hklt
              show k < (p.spans.getD s (0, 0)).1 + p.marked.getD s 0
              rw [hsw]
              omega
            · rw [if_neg hsw] at hklt
              exact hklt
      · intro hor
        rcases hor with rfl | ⟨s, k, hs, hk, hklt⟩
        · refine ⟨ow, st + mk0, ho, ?_, ?_⟩
          · simp only
            rw [hL', if_neg (fun h => hne h.symm), if_pos rfl]
          · simp only
            rw [hmget, if_pos rfl]
            show st + mk0 < (p.spans.getD ow (0, 0)).1 + (mk0 + 1)
            omega
        · have hyx : y ≠ x := by
            intro h
            subst h
            rw [hl] at hk
            injection hk with hk
            rw [ho] at hs
            injection hs with hs
            rw [← hs, ← hk] at hklt
            have hklt3 : i < (p.spans.getD ow (0, 0)).1 +
              p.marked.getD ow 0 := hklt
            omega
          have hyt : y ≠ target := by
            intro h
            subst h
            rw [htloc] at hk
            injection hk with hk
            rw [htown] at hs
            injection hs with hs
            rw [← hs, ← hk] at hklt
            have hklt3 : st + mk0 < (p.spans.getD ow (0, 0)).1 +
              p.marked.getD ow 0 := hklt
            omega
          refine ⟨s, k, hs, ?_, ?_⟩
          · simp only
            rw [hL', if_neg hyt, if_neg hyx]
            exact hk
          · simp only
            rw [hmget]
            by_cases hsw : s = ow
            · rw [if_pos hsw]
              have hklt3 : k < (p.spans.getD s (0, 0)).1 +
                p.marked.getD s 0 := hklt
              show k < (p.spans.getD s (0, 0)).1 + (mk0 + 1)
              rw [hsw] at hklt3 ⊢
              omega
            · rw [if_neg hsw]
              exact hklt
  · -- no-swap case: the element already sits at the boundary
    have hieq : i = (p.spans.getD ow (0, 0)).1 + p.marked.getD ow 0 := by
      omega
    rw [mark_of_no_swap ho hl hieq] at hm
    injection hm with hm
    subst hm
    refine ⟨⟨⟨hp.nodup, ?_, hp.span_stop, hp.span_le, hp.cover, hp.disj,
        hp.loc_keys, hp.loc_get, hp.own_keys, hp.own_span, ?_⟩,
      htl, htp, hpt, htn⟩, List.Perm.refl _, rfl, rfl, ?_⟩
    · rw [List.length_set]
      exact hp.marked_len
    · intro s hs
      rw [hmget s]
      by_cases hsw : s = ow
      · subst hsw
        rw [if_pos rfl]
        simp only [spanOf]
        omega
      · rw [if_neg hsw]
        exact hp.marked_le s hs
    · intro y
      constructor
      · rintro ⟨s, k, hs, hk, hklt⟩
        simp only at hs hk hklt
        by_cases hyx : y = x
        · exact Or.inl hyx
        · refine Or.inr ⟨s, k, hs, hk, ?_⟩
          rw [hmget] at hklt
          by_cases hsw : s = ow
          · rw [if_pos hsw] at hklt
            have hgk := hp.loc_get y k hk
            have hkni : k ≠ i := by
              intro h
              rw [h] at hgk
              rw [hgk] at hgi
              injection hgi with hgi
              exact hyx hgi
            have hklt3 : k < (p.spans.getD ow (0, 0)).1 +
                (p.marked.getD ow 0 + 1) := by
              rw [hsw] at hklt
              exact hklt
            show k < (p.spans.getD s (0, 0)).1 + p.marked.getD s 0
            rw [hsw]
            omega
          · rw [if_neg hsw] at hklt
            exact hklt
      · intro hor
        rcases hor with rfl | ⟨s, k, hs, hk, hklt⟩
        · refine ⟨ow, i, ho, hl, ?_⟩
          simp only
          rw [hmget, if_pos rfl]
          show i < (p.spans.getD ow (0, 0)).1 + (p.marked.getD ow 0 + 1)
          omega
        · refine ⟨s, k, hs, hk, ?_⟩
          simp only
          rw [hmget]
          by_cases hsw : s = ow
          · rw [if_pos hsw]
            have hklt3 : k < (p.spans.getD s (0, 0)).1 +
              p.marked.getD s 0 := hklt
            show k < (p.spans.getD s (0, 0)).1 + (p.marked.getD ow 0 + 1)
            rw [hsw] at hklt3 ⊢
            omega
          · rw [if_neg hsw]
            exact hklt

theorem fold_owner_other (E : List T) (s1 : Nat) (y : T) :
    ∀ (n lo : Nat) (acc : List (T × Nat)),
      (∀ k, lo ≤ k → k < lo + n → E.get? k ≠ some y) →
      lookupA ((List.range' lo n).foldl
        (fun m i => match E.get? i with
          | some e => insertA m e s1
          | none => m) acc) y = lookupA acc y := by
  intro n
  induction n with
  | zero => intro lo acc _; rfl
  | succ n ih =>
    intro lo acc hk
    rw [List.range'_succ, List.foldl_cons]
    have hstep : lookupA
        (match E.get? lo with
          | some e => insertA acc e s1
          | none => acc) y = lookupA acc y := by
      cases hg : E.get? lo with
      | none => rfl
      | some e =>
        have hey : e ≠ y := by
          intro h
          exact hk lo (le_refl lo) (by omega) (by rw [hg, h])
        exact lookupA_insertA_ne _ _ _ _ (fun h => hey h.symm)
    rw [ih (lo + 1) _ (fun k h1 h2 => hk k (by omega) (by omega)), hstep]

theorem fold_owner_hit (E : List T) (hn : E.Nodup) (s1 : Nat) (y : T)
    (k : Nat) (hg : E.get? k = some y) :
    ∀ (n lo : Nat) (acc : List (T × Nat)), lo ≤ k → k < lo + n →
      lookupA ((List.range' lo n).foldl
        (fun m i => match E.get? i with
          | some e => insertA m e s1
          | none => m) acc) y = some s1 := by
  intro n
  induction n with
  | zero => intro lo acc h1 h2; omega
  | succ n ih =>
    intro lo acc h1 h2
    rw [List.range'_succ, List.foldl_cons]
    by_cases hkl : k = lo
    · subst hkl
      rw [hg]
      rw [fold_owner_other E s1 y n (k + 1) _ ?_]
      · exact lookupA_insertA_self _ _ _
      · intro k2 hk1 hk2 hgk2
        have : k2 = k := get?_nodup_inj hn hgk2 hg
        omega
    · have hstep : ∀ acc2, lookupA ((List.range' (lo + 1) n).foldl
          (fun m i => match E.get? i with
            | some e => insertA m e s1
            | none => m) acc2) y = some s1 :=
        fun acc2 => ih (lo + 1) acc2 (by omega) (by omega)
      cases hgl : E.get? lo with
      | none => exact hstep acc
      | some e => exact hstep _

theorem splitStep_of_full {p : Partition T} {s : Nat}
    (h : (p.spans.getD s (0, 0)).1 + p.marked.getD s 0 =
      (p.spans.getD s (0, 0)).2) :
    splitStep p s = { p with marked := p.marked.set s 0 } := by
  simp only [splitStep]
  rw [if_pos h]

theorem splitStep_of_split_big {p : Partition T} {s : Nat}
    (h : (p.spans.getD s (0, 0)).1 + p.marked.getD s 0 ≠
      (p.spans.getD s (0, 0)).2)
    (hbig : (p.spans.getD s (0, 0)).1 + p.marked.getD s 0 -
        (p.spans.getD s (0, 0)).1 ≥
      (p.spans.getD s (0, 0)).2 -
        ((p.spans.getD s (0, 0)).1 + p.marked.getD s 0)) :
    splitStep p s =
      { p with
        spans := p.spans.set s ((p.spans.getD s (0, 0)).1,
            (p.spans.getD s (0, 0)).1 + p.marked.getD s 0) ++
          [((p.spans.getD s (0, 0)).1 + p.marked.getD s 0,
            (p.spans.getD s (0, 0)).2)]
        marked := p.marked.set s 0 ++ [0]
        owners :=
          (List.range' ((p.spans.getD s (0, 0)).1 + p.marked.getD s 0)
            ((p.spans.getD s (0, 0)).2 -
              ((p.spans.getD s (0, 0)).1 + p.marked.getD s 0))).foldl
            (fun m i => match p.elements.get? i with
              | some e => insertA m e p.spans.length
              | none => m) p.owners } := by
  simp only [splitStep]
  rw [if_neg h, if_pos hbig, if_pos hbig]

theorem splitStep_of_split_small {p : Partition T} {s : Nat}
    (h : (p.spans.getD s (0, 0)).1 + p.marked.getD s 0 ≠
      (p.spans.getD s (0, 0)).2)
    (hsmall : ¬ ((p.spans.getD s (0, 0)).1 + p.marked.getD s 0 -
        (p.spans.getD s (0, 0)).1 ≥
      (p.spans.getD s (0, 0)).2 -
        ((p.spans.getD s (0, 0)).1 + p.marked.getD s 0))) :
    splitStep p s =
      { p with
        spans := p.spans.set s ((p.spans.getD s (0, 0)).1 + p.marked.getD s 0,
            (p.spans.getD s (0, 0)).2) ++
          [((p.spans.getD s (0, 0)).1,
            (p.spans.getD s (0, 0)).1 + p.marked.getD s 0)]
        marked := p.marked.set s 0 ++ [0]
        owners :=
          (List.range' (p.spans.getD s (0, 0)).1
            ((p.spans.getD s (0, 0)).1 + p.marked.getD s 0 -
              (p.spans.getD s (0, 0)).1)).foldl
            (fun m i => match p.elements.get? i with
              | some e => insertA m e p.spans.length
              | none => m) p.owners } := by
  simp only [splitStep]
  rw [if_neg h, if_neg hsmall, if_neg hsmall]

theorem splitStep_core {p : Partition T} (hp : InvCore p) {s : Nat}
    (hs : s < p.spans.length) (keep fresh : Nat × Nat)
    (hq : splitStep p s =
      { p with
        spans := p.spans.set s keep ++ [fresh]
        marked := p.marked.set s 0 ++ [0]
        owners := (List.range' fresh.1 (fresh.2 - fresh.1)).foldl
          (fun m i => match p.elements.get? i with
            | some e => insertA m e p.spans.length
            | none => m) p.owners })
    (hcov : ∀ i, ((p.spans.getD s (0, 0)).1 ≤ i ∧
        i < (p.spans.getD s (0, 0)).2) ↔
      ((keep.1 ≤ i ∧ i < keep.2) ∨ (fresh.1 ≤ i ∧ i < fresh.2)))
    (hdkf : ∀ i, ¬ ((keep.1 ≤ i ∧ i < keep.2) ∧
      (fresh.1 ≤ i ∧ i < fresh.2)))
    (hkle : keep.1 ≤ keep.2) (hfle : fresh.1 ≤ fresh.2)
    (hke : keep.2 ≤ (p.spans.getD s (0, 0)).2)
    (hfe : fresh.2 ≤ (p.spans.getD s (0, 0)).2) :
    InvCore (splitStep p s) ∧
    (splitStep p s).elements = p.elements ∧
    (splitStep p s).locations = p.locations ∧
    (splitStep p s).touched = p.touched ∧
    p.spans.length ≤ (splitStep p s).spans.length ∧
    (∀ t, 0 < (splitStep p s).marked.getD t 0 →
      t ≠ s ∧ 0 < p.marked.getD t 0) := by
  have hmlen0 : p.marked.length = p.spans.length := hp.marked_len
  have hsplen : (p.spans.set s keep ++ [fresh]).length =
      p.spans.length + 1 := by
    rw [List.length_append, List.length_set]
    rfl
  have hsetlen : (p.spans.set s keep).length = p.spans.length :=
    List.length_set p.spans s keep
  have hspan' : ∀ t, (p.spans.set s keep ++ [fresh]).getD t (0, 0) =
      if t = s then keep
      else if t = p.spans.length then fresh
      else p.spans.getD t (0, 0) := by
    intro t
    by_cases hts : t = s
    · subst hts
      rw [if_pos rfl, getD_append_lt _ _ _ _ (by rw [hsetlen]; exact hs),
        getD_set_self _ _ _ _ hs]
    · rw [if_neg hts]
      by_cases htl : t = p.spans.length
      · subst htl
        rw [if_pos rfl, ← hsetlen, getD_append_len]
      · rw [if_neg htl]
        rcases Nat.lt_or_ge t p.spans.length with hlt | hge
        · rw [getD_append_lt _ _ _ _ (by rw [hsetlen]; exact hlt),
            getD_set_ne _ _ _ _ _ (fun h => hts h.symm)]
        · rw [getD_of_le _ _ _ (by rw [hsplen]; omega),
            getD_of_le _ _ _ hge]
  have hmk' : ∀ t, (p.marked.set s 0 ++ [0]).getD t 0 =
      if t = s then 0
      else if t = p.spans.length then 0
      else p.marked.getD t 0 := by
    intro t
    by_cases hts : t = s
    · subst hts
      rw [if_pos rfl, getD_append_lt _ _ _ _
          (by rw [List.length_set]; omega),
        getD_set_self _ _ _ _ (by omega)]
    · rw [if_neg hts]
      by_cases htl : t = p.spans.length
      · subst htl
        have : p.spans.length = (p.marked.set s 0).length := by
          rw [List.length_set, hmlen0]
        rw [if_pos rfl, this, getD_append_len]
      · rw [if_neg htl]
        rcases Nat.lt_or_ge t p.marked.length with hlt | hge
        · rw [getD_append_lt _ _ _ _ (by rw [List.length_set]; exact hlt),
            getD_set_ne _ _ _ _ _ (fun h => hts h.symm)]
        · rw [getD_of_le _ _ _
            (by rw [List.length_append, List.length_set,
              List.length_singleton]; omega),
            getD_of_le _ _ _ hge]
  have hstep : (fun (m : List (T × Nat)) (i : Nat) =>
      match p.elements.get? i with
        | some e => insertA m e p.spans.length
        | none => m) = fun m i =>
      match p.elements.get? i with
        | some e => insertA m e p.spans.length
        | none => m := rfl
  have howner' : ∀ y k, lookupA p.locations y = some k →
      lookupA ((List.range' fresh.1 (fresh.2 - fresh.1)).foldl
        (fun m i => match p.elements.get? i with
          | some e => insertA m e p.spans.length
          | none => m) p.owners) y =
      if fresh.1 ≤ k ∧ k < fresh.2 then some p.spans.length
      else lookupA p.owners y := by
    intro y k hk
    have hg := hp.loc_get y k hk
    by_cases hin : fresh.1 ≤ k ∧ k < fresh.2
    · rw [if_pos hin]
      exact fold_owner_hit p.elements hp.nodup p.spans.length y k hg
        (fresh.2 - fresh.1) fresh.1 p.owners hin.1 (by omega)
    · rw [if_neg hin]
      refine fold_owner_other p.elements p.spans.length y
        (fresh.2 - fresh.1) fresh.1 p.owners ?_
      intro k2 h1 h2 hg2
      have : k2 = k := get?_nodup_inj hp.nodup hg2 hg
      omega
  have howner'' : ∀ y, y ∉ p.elements →
      lookupA ((List.range' fresh.1 (fresh.2 - fresh.1)).foldl
        (fun m i => match p.elements.get? i with
          | some e => insertA m e p.spans.length
          | none => m) p.owners) y = lookupA p.owners y := by
    intro y hy
    refine fold_owner_other p.elements p.spans.length y
      (fresh.2 - fresh.1) fresh.1 p.owners ?_
    intro k2 _ _ hg2
    exact hy (List.get?_mem hg2)
  have hproj : ∀ t i, inSpan (splitStep p s) t i →
      inSpan p (if t = p.spans.length then s else t) i ∧
      ((t = p.spans.length → inSpan p s i ∧ fresh.1 ≤ i ∧ i < fresh.2) ∧
       (t = s → inSpan p s i ∧ keep.1 ≤ i ∧ i < keep.2)) := by
    intro t i hin
    rw [hq] at hin
    simp only [inSpan, spanOf] at hin
    rw [hspan' t] at hin
    have hsne : s ≠ p.spans.length := by omega
    by_cases hts : t = s
    · subst hts
      rw [if_pos rfl] at hin
      have hold : inSpan p t i := by
        simp only [inSpan, spanOf]
        have := (hcov i).mpr (Or.inl hin)
        omega
      rw [if_neg hsne]
      exact ⟨hold, ⟨fun h => absurd h hsne, fun _ => ⟨hold, hin⟩⟩⟩
    · rw [if_neg hts] at hin
      by_cases htl : t = p.spans.length
      · subst htl
        rw [if_pos rfl] at hin
        have hold : inSpan p s i := by
          simp only [inSpan, spanOf]
          have := (hcov i).mpr (Or.inr hin)
          omega
        rw [if_pos rfl]
        exact ⟨hold, ⟨fun _ => ⟨hold, hin⟩, fun h => absurd h hts⟩⟩
      · rw [if_neg htl] at hin
        rw [if_neg htl]
        exact ⟨hin, ⟨fun h => absurd h htl, fun h => absurd h hts⟩⟩
  rw [hq]
  refine ⟨⟨hp.nodup, ?_, ?_, ?_, ?_, ?_, hp.loc_keys, hp.loc_get, ?_, ?_, ?_⟩,
    rfl, rfl, rfl, by rw [hsplen]; omega, ?_⟩
  · rw [List.length_append, List.length_set, List.length_singleton, hsplen,
      hmlen0]
  · intro t ht
    simp only [spanOf]
    rw [hspan' t]
    rw [hsplen] at ht
    by_cases hts : t = s
    · rw [if_pos hts]
      have := hp.span_stop s hs
      simp only [spanOf] at this
      omega
    · rw [if_neg hts]
      by_cases htl : t = p.spans.length
      · rw [if_pos htl]
        have := hp.span_stop s hs
        simp only [spanOf] at this
        omega
      · rw [if_neg htl]
        have := hp.span_stop t (by omega)
        simp only [spanOf] at this
        omega
  · intro t ht
    simp only [spanOf]
    rw [hspan' t]
    rw [hsplen] at ht
    by_cases hts : t = s
    · rw [if_pos hts]
      exact hkle
    · rw [if_neg hts]
      by_cases htl : t = p.spans.length
      · rw [if_pos htl]
        exact hfle
      · rw [if_neg htl]
        have := hp.span_le t (by omega)
        simp only [spanOf] at this
        omega
  · intro i hi
    rcases hp.cover i hi with ⟨t, ht, hin⟩
    simp only [inSpan, spanOf] at hin
    by_cases hts : t = s
    · subst hts
      rcases (hcov i).mp hin with hk | hf
      · refine ⟨t, by rw [hsplen]; omega, ?_⟩
        simp only [inSpan, spanOf]
        rw [hspan' t, if_pos rfl]
        exact hk
      · refine ⟨p.spans.length, by rw [hsplen]; omega, ?_⟩
        simp only [inSpan, spanOf]
        rw [hspan' p.spans.length, if_neg (by omega), if_pos rfl]
        exact hf
    · refine ⟨t, by rw [hsplen]; omega, ?_⟩
      simp only [inSpan, spanOf]
      rw [hspan' t, if_neg hts, if_neg (by omega)]
      exact hin
  · intro t1 t2 i ht1 ht2 hin1 hin2
    have h1 := hproj t1 i (by rw [hq]; exact hin1)
    have h2 := hproj t2 i (by rw [hq]; exact hin2)
    by_cases ht1l : t1 = p.spans.length
    · by_cases ht2l : t2 = p.spans.length
      · rw [ht1l, ht2l]
      · rcases (h1.2.1 ht1l) with ⟨_, hf1⟩
        have hp1 := h1.1
        rw [if_pos ht1l] at hp1
        have hp2 := h2.1
        rw [if_neg ht2l] at hp2
        have ht2s : t2 = s := by
          rw [hsplen] at ht2
          exact hp.disj t2 s i (by omega) hs hp2 hp1
        rcases (h2.2.2 ht2s) with ⟨_, hk2⟩
        exact absurd ⟨hk2, hf1⟩ (hdkf i)
    · by_cases ht2l : t2 = p.spans.length
      · rcases (h2.2.1 ht2l) with ⟨_, hf2⟩
        have hp2 := h2.1
        rw [if_pos ht2l] at hp2
        have hp1 := h1.1
        rw [if_neg ht1l] at hp1
        have ht1s : t1 = s := by
          rw [hsplen] at ht1
          exact hp.disj t1 s i (by omega) hs hp1 hp2
        rcases (h1.2.2 ht1s) with ⟨_, hk1⟩
        exact absurd ⟨hk1, hf2⟩ (hdkf i)
      · have hp1 := h1.1
        rw [if_neg ht1l] at hp1
        have hp2 := h2.1
        rw [if_neg ht2l] at hp2
        rw [hsplen] at ht1 ht2
        exact hp.disj t1 t2 i (by omega) (by omega) hp1 hp2
  · intro y
    by_cases hy : y ∈ p.elements
    · rcases Option.isSome_iff_exists.mp ((hp.loc_keys y).mpr hy)
        with ⟨k, hk⟩
      rw [howner' y k hk]
      by_cases hin : fresh.1 ≤ k ∧ k < fresh.2
      · rw [if_pos hin]
        simp [hy]
      · rw [if_neg hin]
        rw [hp.own_keys y]
    · rw [howner'' y hy]
      rw [hp.own_keys y]
  · intro y t k ht hk
    rw [howner' y k hk] at ht
    by_cases hin : fresh.1 ≤ k ∧ k < fresh.2
    · rw [if_pos hin] at ht
      injection ht with ht
      subst ht
      refine ⟨by rw [hsplen]; omega, ?_⟩
      simp only [inSpan, spanOf]
      rw [hspan' p.spans.length, if_neg (by omega), if_pos rfl]
      exact hin
    · rw [if_neg hin] at ht
      rcases hp.own_span y t k ht hk with ⟨htlt, hspan⟩
      simp only [inSpan, spanOf] at hspan
      by_cases hts : t = s
      · subst hts
        rcases (hcov k).mp hspan with hkk | hff
        · refine ⟨by rw [hsplen]; omega, ?_⟩
          simp only [inSpan, spanOf]
          rw [hspan' t, if_pos rfl]
          exact hkk
        · exact absurd hff hin
      · refine ⟨by rw [hsplen]; omega, ?_⟩
        simp only [inSpan, spanOf]
        rw [hspan' t, if_neg hts, if_neg (by omega)]
        exact hspan
  · intro t ht
    simp only [spanOf]
    rw [hspan' t, hmk' t]
    rw [hsplen] at ht
    by_cases hts : t = s
    · rw [if_pos hts, if_pos hts]
      omega
    · rw [if_neg hts, if_neg hts]
      by_cases htl : t = p.spans.length
      · rw [if_pos htl, if_pos htl]
        omega
      · rw [if_neg htl, if_neg htl]
        have := hp.marked_le t (by omega)
        simp only [spanOf] at this
        omega
  · intro t hpos
    rw [hmk' t] at hpos
    by_cases hts : t = s
    · rw [if_pos hts] at hpos
      omega
    · rw [if_neg hts] at hpos
      by_cases htl : t = p.spans.length
      · rw [if_pos htl] at hpos
        omega
      · rw [if_neg htl] at hpos
        exact ⟨hts, hpos⟩

theorem splitStep_preserves {p : Partition T} (hp : InvCore p) {s : Nat}
    (hs : s < p.spans.length) :
    InvCore (splitStep p s) ∧
    (splitStep p s).elements = p.elements ∧
    (splitStep p s).locations = p.locations ∧
    (splitStep p s).touched = p.touched ∧
    p.spans.length ≤ (splitStep p s).spans.length ∧
    (∀ t, 0 < (splitStep p s).marked.getD t 0 →
      t ≠ s ∧ 0 < p.marked.getD t 0) := by
  have hmlen0 : p.marked.length = p.spans.length := hp.marked_len
  have hml : (p.spans.getD s (0, 0)).1 + p.marked.getD s 0 ≤
      (p.spans.getD s (0, 0)).2 := hp.marked_le s hs
  by_cases hful : (p.spans.getD s (0, 0)).1 + p.marked.getD s 0 =
      (p.spans.getD s (0, 0)).2
  · rw [splitStep_of_full hful]
    have hmk' := marked_set_getD (p := p) (by omega : s < p.marked.length) 0
    refine ⟨⟨hp.nodup, ?_, hp.span_stop, hp.span_le, hp.cover, hp.disj,
        hp.loc_keys, hp.loc_get, hp.own_keys, hp.own_span, ?_⟩,
      rfl, rfl, rfl, le_refl _, ?_⟩
    · rw [List.length_set]
      exact hp.marked_len
    · intro t ht
      rw [hmk' t]
      by_cases hts : t = s
      · rw [if_pos hts, hts]
        have := hp.span_le s hs
        simp only [spanOf] at this ⊢
        omega
      · rw [if_neg hts]
        exact hp.marked_le t ht
    · intro t hpos
      rw [hmk' t] at hpos
      by_cases hts : t = s
      · rw [if_pos hts] at hpos
        omega
      · rw [if_neg hts] at hpos
        exact ⟨hts, hpos⟩
  · by_cases hbig : (p.spans.getD s (0, 0)).1 + p.marked.getD s 0 -
        (p.spans.getD s (0, 0)).1 ≥
      (p.spans.getD s (0, 0)).2 -
        ((p.spans.getD s (0, 0)).1 + p.marked.getD s 0)
    · refine splitStep_core hp hs
        ((p.spans.getD s (0, 0)).1,
          (p.spans.getD s (0, 0)).1 + p.marked.getD s 0)
        ((p.spans.getD s (0, 0)).1 + p.marked.getD s 0,
          (p.spans.getD s (0, 0)).2)
        (splitStep_of_split_big hful hbig) ?_ ?_ ?_ ?_ ?_ ?_
      · intro i
        dsimp only
        omega
      · intro i
        dsimp only
        omega
      · dsimp only
        omega
      · dsimp only
        omega
      · dsimp only
        omega
      · dsimp only
        omega
    · refine splitStep_core hp hs
        ((p.spans.getD s (0, 0)).1 + p.marked.getD s 0,
          (p.spans.getD s (0, 0)).2)
        ((p.spans.getD s (0, 0)).1,
          (p.spans.getD s (0, 0)).1 + p.marked.getD s 0)
        (splitStep_of_split_small hful hbig) ?_ ?_ ?_ ?_ ?_ ?_
      · intro i
        dsimp only
        omega
      · intro i
        dsimp only
        omega
      · dsimp only
        omega
      · dsimp only
        omega
      · dsimp only
        omega
      · dsimp only
        omega

theorem splitAux_spec : ∀ (rest : List Nat) (p : Partition T),
    InvCore p →
    (∀ t, 0 < p.marked.getD t 0 → t ∈ rest) →
    (∀ t, t ∈ rest → t < p.spans.length) →
    InvCore (splitAux p rest) ∧
    (∀ t, (splitAux p rest).marked.getD t 0 = 0) ∧
    (splitAux p rest).elements = p.elements ∧
    (splitAux p rest).locations = p.locations ∧
    (splitAux p rest).touched = p.touched := by
  intro rest
  induction rest with
  | nil =>
    intro p hp hpos _
    refine ⟨hp, ?_, rfl, rfl, rfl⟩
    intro t
    rcases Nat.eq_zero_or_pos (p.marked.getD t 0) with h | h
    · exact h
    · exact absurd (hpos t h) (List.not_mem_nil t)
  | cons s rest ih =>
    intro p hp hpos hbnd
    obtain ⟨hc, he, hl, ht, hlen, hm⟩ :=
      splitStep_preserves hp (hbnd s (List.mem_cons_self s rest))
    obtain ⟨hc2, hz, he2, hl2, ht2⟩ := ih (splitStep p s) hc
      (fun t hpt =>
        have h2 := hm t hpt
        (List.mem_cons.mp (hpos t h2.2)).resolve_left h2.1)
      (fun t htr => lt_of_lt_of_le (hbnd t (List.mem_cons_of_mem s htr)) hlen)
    rw [splitAux]
    exact ⟨hc2, hz, by rw [he2, he], by rw [hl2, hl], by rw [ht2, ht]⟩

theorem split_spec {p : Partition T} (hp : Inv p) :
    Inv (Partition.split p) ∧
    (∀ t, (Partition.split p).marked.getD t 0 = 0) ∧
    (Partition.split p).elements = p.elements ∧
    (Partition.split p).locations = p.locations ∧
    (Partition.split p).touched = [] ∧
    (∀ y, ¬ inMarkedRegion (Partition.split p) y) := by
  have hp0 : InvCore ({ p with touched := [] } : Partition T) :=
    ⟨hp.nodup, hp.marked_len, hp.span_stop, hp.span_le, hp.cover, hp.disj,
      hp.loc_keys, hp.loc_get, hp.own_keys, hp.own_span, hp.marked_le⟩
  obtain ⟨hc, hz, he, hl, ht⟩ := splitAux_spec p.touched
    ({ p with touched := [] } : Partition T) hp0
    (fun t hpt => hp.pos_touched t hpt) (fun t htr => hp.touched_lt t htr)
  have htouch : (Partition.split p).touched = [] := by
    rw [Partition.split, ht]
  have hinv : Inv (Partition.split p) := by
    refine ⟨?_, ?_, ?_, ?_, ?_⟩
    · exact hc
    · intro s hsm
      rw [htouch] at hsm
      cases hsm
    · intro s hsm
      rw [htouch] at hsm
      cases hsm
    · intro s hpos
      rw [Partition.split] at hpos ⊢
      rw [hz s] at hpos
      omega
    · rw [htouch]
      exact List.nodup_nil
  refine ⟨hinv, fun t => by rw [Partition.split]; exact hz t,
    by rw [Partition.split, he], by rw [Partition.split, hl], htouch, ?_⟩
  intro y
  rintro ⟨s, k, hso, hko, hklt⟩
  have hc' : InvCore (Partition.split p) := by
    rw [Partition.split]
    exact hc
  rcases hc'.own_span y s k hso hko with ⟨hslt, hins⟩
  simp only [inSpan] at hins
  have hz' : (Partition.split p).marked.getD s 0 = 0 := by
    rw [Partition.split]
    exact hz s
  rw [hz'] at hklt
  omega

end Partition

section Seeding

variable {S E : Type} [DecidableEq S] [DecidableEq E]

theorem markAll_spec :
    ∀ (L : List S) (p : Partition S), Partition.Inv p → L.Nodup →
    (∀ x, x ∈ L → x ∈ p.elements) →
    (∀ x, x ∈ L → ¬ Partition.inMarkedRegion p x) →
    ∃ p', markAll p L = some p' ∧ Partition.Inv p' ∧
      p'.elements.Perm p.elements ∧
      (∀ y, Partition.inMarkedRegion p' y ↔
        y ∈ L ∨ Partition.inMarkedRegion p y) := by
  intro L
  induction L with
  | nil =>
    intro p hp _ _ _
    exact ⟨p, rfl, hp, List.Perm.refl _, fun y => by simp⟩
  | cons x L ih =>
    intro p hp hnd hmem hunm
    rw [List.nodup_cons] at hnd
    have hxmem : x ∈ p.elements := hmem x (List.mem_cons_self x L)
    have hxunm : ¬ Partition.inMarkedRegion p x :=
      hunm x (List.mem_cons_self x L)
    have hmark : Partition.mark p x ≠ none := fun hnone =>
      ((Partition.mark_eq_none_iff hp.toInvCore x).mp hnone).elim
        (fun h => h hxmem) (fun h => hxunm h)
    rcases Option.ne_none_iff_exists'.mp hmark with ⟨p1, hp1⟩
    obtain ⟨hinv1, hperm1, _, _, hreg1⟩ := Partition.mark_some_spec hp hp1
    obtain ⟨p', hall, hinv', hperm', hreg'⟩ := ih p1 hinv1 hnd.2
      (fun z hz => hperm1.mem_iff.mpr (hmem z (List.mem_cons_of_mem x hz)))
      (fun z hz => by
        rw [hreg1 z]
        push_neg
        exact ⟨fun he => hnd.1 (he ▸ hz),
          hunm z (List.mem_cons_of_mem x hz)⟩)
    refine ⟨p', ?_, hinv', hperm'.trans hperm1, ?_⟩
    · rw [markAll, List.foldlM_cons, hp1]
      exact hall
    · intro y
      rw [hreg' y, hreg1 y, List.mem_cons]
      tauto

theorem label_group_eq (ts : List (S × E × S)) (l : E) :
    (lookupG (byB ts) l).map (fun sd => (sd.1, l, sd.2)) =
      ts.filter (fun t => decide (t.2.1 = l)) := by
  rw [byB, lookupG_groupByTo, List.map_map]
  have : ∀ t ∈ ts.filter (fun t => decide (t.2.1 = l)),
      ((fun sd => (sd.1, l, sd.2)) ∘ fun t => (t.1, t.2.2)) t = t := by
    intro t ht
    have := List.of_mem_filter ht
    simp only [decide_eq_true_eq] at this
    show (t.1, l, t.2.2) = t
    rw [← this]
  rw [List.map_congr_left this]
  exact List.map_id' _

theorem seedAux_isSome (ts : List (S × E × S)) (hts : ts.Nodup) :
    ∀ (labels : List E) (p : Partition (S × E × S)),
    Partition.Inv p → (∀ y, ¬ Partition.inMarkedRegion p y) →
    (∀ x, x ∈ p.elements ↔ x ∈ ts) →
    (labels.foldlM
      (fun p l => do
        let p1 ← markAll p
          ((lookupG (byB ts) l).map (fun sd : S × S => (sd.1, l, sd.2)))
        pure p1.split) p).isSome := by
  intro labels
  induction labels with
  | nil =>
    intro p _ _ _
    rw [List.foldlM_nil]
    rfl
  | cons l ls ih =>
    intro p hp hreg hmem
    rw [List.foldlM_cons]
    have hgrp := label_group_eq ts l
    obtain ⟨p1, hall, hinv1, hperm1, _⟩ := markAll_spec
      ((lookupG (byB ts) l).map (fun sd => (sd.1, l, sd.2))) p hp
      (by rw [hgrp]; exact hts.filter _)
      (fun z hz => by
        rw [hgrp] at hz
        exact (hmem z).mpr (List.mem_of_mem_filter hz))
      (fun z _ => hreg z)
    rw [hall]
    obtain ⟨hinv2, _, hel2, _, _, hreg2⟩ := Partition.split_spec hinv1
    exact ih p1.split hinv2 hreg2
      (fun x => by rw [hel2, hperm1.mem_iff]; exact hmem x)

theorem new_region_empty (ts : List (S × E × S)) :
    ∀ y, ¬ Partition.inMarkedRegion (Partition.new ts) y := by
  intro y
  rintro ⟨s, k, hso, hko, hklt⟩
  rw [new_own_lookup] at hso
  by_cases hy : y ∈ ts
  · rw [if_pos hy] at hso
    injection hso with hso
    subst hso
    simp [Partition.spanOf, Partition.new] at hklt
  · rw [if_neg hy] at hso
    cases hso

end Seeding

/-- C5 amended: the cord partition of minimize is built over every
transition occurrence without deduplication, and when the transition
sequence contains no duplicate triple the label seeding never fails (every
mark during seeding satisfies the mark precondition); with duplicates
present the seeding can abort, as c5_duplicate_seeding_aborts shows. -/
theorem c5_nodup_seeding_never_fails {S E : Type} [DecidableEq S]
    [DecidableEq E] (d : DFA S E) (h : d.transitions.Nodup) :
    (minimizeSeedCords d).isSome := by
  rw [minimizeSeedCords, seedCords]
  exact seedAux_isSome d.transitions h (labelsOf d.transitions)
    (Partition.new d.transitions) (inv_new h)
    (new_region_empty d.transitions) (fun x => Iff.rfl)

/-- C5 witness: the seeding succeeds on the duplicate-free wikipedia DFA. -/
theorem c5_nodup_seeding_never_fails_witness :
    exWiki.transitions.Nodup ∧ (minimizeSeedCords exWiki).isSome :=
  ⟨by decide, c5_nodup_seeding_never_fails exWiki (by decide)⟩

namespace Partition

variable {T : Type} [DecidableEq T]

theorem splitStep_c6_core {p : Partition T} (hp : InvCore p) {s : Nat}
    (hs : s < p.spans.length) (keep fresh : Nat × Nat)
    (hq : splitStep p s =
      { p with
        spans := p.spans.set s keep ++ [fresh]
        marked := p.marked.set s 0 ++ [0]
        owners := (List.range' fresh.1 (fresh.2 - fresh.1)).foldl
          (fun m i => match p.elements.get? i with
            | some e => insertA m e p.spans.length
            | none => m) p.owners }) :
    (splitStep p s).spans.length = p.spans.length + 1 ∧
    spanOf (splitStep p s) s = keep ∧
    spanOf (splitStep p s) p.spans.length = fresh ∧
    (splitStep p s).marked.getD s 0 = 0 ∧
    (splitStep p s).marked.getD p.spans.length 0 = 0 ∧
    (∀ x i, lookupA p.locations x = some i →
      lookupA (splitStep p s).owners x =
        if fresh.1 ≤ i ∧ i < fresh.2 then some p.spans.length
        else lookupA p.owners x) := by
  have hmlen0 : p.marked.length = p.spans.length := hp.marked_len
  have hsetlen : (p.spans.set s keep).length = p.spans.length :=
    List.length_set p.spans s keep
  rw [hq]
  refine ⟨?_, ?_, ?_, ?_, ?_, ?_⟩
  · rw [List.length_append, List.length_set, List.length_singleton]
  · simp only [spanOf]
    rw [getD_append_lt _ _ _ _ (by rw [hsetlen]; exact hs),
      getD_set_self _ _ _ _ hs]
  · simp only [spanOf]
    rw [← hsetlen, getD_append_len]
  · rw [getD_append_lt _ _ _ _ (by rw [List.length_set]; omega),
      getD_set_self _ _ _ _ (by omega)]
  · have : p.spans.length = (p.marked.set s 0).length := by
      rw [List.length_set, hmlen0]
    rw [this, getD_append_len]
  · intro x i hloc
    have hg := hp.loc_get x i hloc
    by_cases hin : fresh.1 ≤ i ∧ i < fresh.2
    · rw [if_pos hin]
      exact fold_owner_hit p.elements hp.nodup p.spans.length x i hg
        (fresh.2 - fresh.1) fresh.1 p.owners hin.1 (by omega)
    · rw [if_neg hin]
      refine fold_owner_other p.elements p.spans.length x
        (fresh.2 - fresh.1) fresh.1 p.owners ?_
      intro k2 h1 h2 hg2
      have : k2 = i := get?_nodup_inj hp.nodup hg2 hg
      omega

end Partition

/-- C6: for a well-formed partition state and a set s touched since the
previous split, processing s in split leaves a fully marked set unchanged
with its mark count cleared; otherwise it divides the span at the marked
boundary into the non-empty marked prefix and non-empty unmarked
remainder, allocates the fresh identifier to a half no larger than the
half keeping identifier s, clears the mark count, and re-owns exactly the
fresh half's elements. -/
theorem c6_split_divides_touched_sets {T : Type} [DecidableEq T]
    (p : Partition T) (s : Nat) (hp : Partition.Inv p)
    (hs : s ∈ p.touched) : Partition.SplitStepSpec p s := by
  have hslt : s < p.spans.length := hp.touched_lt s hs
  have hpos : 0 < p.marked.getD s 0 := hp.touched_pos s hs
  have hml : (p.spans.getD s (0, 0)).1 + p.marked.getD s 0 ≤
      (p.spans.getD s (0, 0)).2 := hp.marked_le s hslt
  constructor
  · intro hmid
    rw [Partition.splitStep_of_full hmid]
    exact ⟨rfl, rfl, rfl, rfl, rfl⟩
  · intro hmid
    have hmid' : (p.spans.getD s (0, 0)).1 + p.marked.getD s 0 <
        (p.spans.getD s (0, 0)).2 := hmid
    have hful : (p.spans.getD s (0, 0)).1 + p.marked.getD s 0 ≠
        (p.spans.getD s (0, 0)).2 := by omega
    by_cases hbig : (p.spans.getD s (0, 0)).1 + p.marked.getD s 0 -
        (p.spans.getD s (0, 0)).1 ≥
      (p.spans.getD s (0, 0)).2 -
        ((p.spans.getD s (0, 0)).1 + p.marked.getD s 0)
    · obtain ⟨hlen, hkeepq, hfreshq, hmz, hmz1, hown⟩ :=
        Partition.splitStep_c6_core hp.toInvCore hslt
          ((p.spans.getD s (0, 0)).1,
            (p.spans.getD s (0, 0)).1 + p.marked.getD s 0)
          ((p.spans.getD s (0, 0)).1 + p.marked.getD s 0,
            (p.spans.getD s (0, 0)).2)
          (Partition.splitStep_of_split_big hful hbig)
      refine ⟨by omega, hmid, hlen, Or.inl ⟨hkeepq, hfreshq⟩, ?_, hmz,
        hmz1, ?_⟩
      · rw [hkeepq, hfreshq]
        dsimp only
        omega
      · intro x i hloc
        rw [hfreshq]
        exact hown x i hloc
    · obtain ⟨hlen, hkeepq, hfreshq, hmz, hmz1, hown⟩ :=
        Partition.splitStep_c6_core hp.toInvCore hslt
          ((p.spans.getD s (0, 0)).1 + p.marked.getD s 0,
            (p.spans.getD s (0, 0)).2)
          ((p.spans.getD s (0, 0)).1,
            (p.spans.getD s (0, 0)).1 + p.marked.getD s 0)
          (Partition.splitStep_of_split_small hful hbig)
      refine ⟨by omega, hmid, hlen, Or.inr ⟨hkeepq, hfreshq⟩, ?_, hmz,
        hmz1, ?_⟩
      · rw [hkeepq, hfreshq]
        dsimp only
        omega
      · intro x i hloc
        rw [hfreshq]
        exact hown x i hloc

/-- C6 witness: the partition on universe 10,20,30,40 with 10 marked has
set 0 touched, and the split-step properties hold there. -/
theorem c6_split_divides_touched_sets_witness :
    Partition.SplitStepSpec exPart6 0 :=
  c6_split_divides_touched_sets exPart6 0
    ((Partition.mark_some_spec (inv_new (by decide))
      (show (Partition.new [10, 20, 30, 40]).mark 10 = some exPart6
        from rfl)).1)
    (by decide)

/-- C7: on a well-formed partition state over distinct elements, mark
fails exactly on an element outside the universe or already marked since
its owning set was last split (it sits in the marked region); a
successful mark extends the marked region by exactly its element; a split
empties the marked region. -/
theorem c7_mark_fails_iff_marked_or_missing {T : Type} [DecidableEq T]
    (p : Partition T) (x : T) (hp : Partition.Inv p) :
    Partition.MarkSpec p x :=
  ⟨Partition.mark_eq_none_iff hp.toInvCore x,
   fun p' hm => (Partition.mark_some_spec hp hm).2.2.2.2,
   (Partition.split_spec hp).2.2.2.2.2⟩

/-- C7 witness: the mark specification holds at a concrete two-element
partition. -/
theorem c7_mark_fails_iff_marked_or_missing_witness :
    Partition.MarkSpec exPart7 5 :=
  c7_mark_fails_iff_marked_or_missing exPart7 5 (inv_new (by decide))

/-- C8: a partition created from a sequence of distinct elements starts
as the single set spanning the whole universe, and after any sequence of
precondition-respecting marks and splits the spans are pairwise disjoint
in-bounds contiguous ranges covering the backing array, the backing array
is a permutation of the universe, the location index maps every element
to the position holding it, and the owner index maps every element to the
set whose span contains its position. -/
theorem c8_partition_invariants {T : Type} [DecidableEq T] (u : List T)
    (hu : u.Nodup) (p : Partition T) (hp : Partition.ReachableFrom u p) :
    (Partition.new u).spans = [(0, u.length)] ∧
    Partition.InvariantSpec u p := by
  have key : Partition.Inv p ∧ p.elements.Perm u := by
    induction hp with
    | base => exact ⟨inv_new hu, List.Perm.refl u⟩
    | mark hr hm ih =>
      obtain ⟨hinv, hperm, _, _, _⟩ := Partition.mark_some_spec ih.1 hm
      exact ⟨hinv, hperm.trans ih.2⟩
    | split hr ih =>
      obtain ⟨hinv, _, hel, _, _, _⟩ := Partition.split_spec ih.1
      exact ⟨hinv, by rw [hel]; exact ih.2⟩
  obtain ⟨hinv, hperm⟩ := key
  refine ⟨rfl, hperm, hinv.cover, hinv.disj,
    fun s hsl => ⟨hinv.span_le s hsl, hinv.span_stop s hsl⟩, ?_, ?_⟩
  · intro x hx
    rcases Option.isSome_iff_exists.mp ((hinv.loc_keys x).mpr hx) with ⟨i, hi⟩
    exact ⟨i, hi, hinv.loc_get x i hi⟩
  · intro x hx
    rcases Option.isSome_iff_exists.mp ((hinv.own_keys x).mpr hx) with ⟨s, hos⟩
    rcases Option.isSome_iff_exists.mp ((hinv.loc_keys x).mpr hx) with ⟨i, hi⟩
    rcases hinv.own_span x s i hos hi with ⟨hsl, hins⟩
    exact ⟨s, i, hos, hsl, hi, hins⟩

/-- C8 witness: the invariants hold after marking and splitting on the
universe 3, 1, 2. -/
theorem c8_partition_invariants_witness :
    (Partition.new [3, 1, 2]).spans = [(0, 3)] ∧
    Partition.InvariantSpec [3, 1, 2] exPart8 :=
  c8_partition_invariants [3, 1, 2] (by decide) exPart8
    (Partition.ReachableFrom.split
      (Partition.ReachableFrom.mark Partition.ReachableFrom.base
        (show (Partition.new [3, 1, 2]).mark 1 =
          some (((Partition.new [3, 1, 2]).mark 1).getD (Partition.new []))
          from rfl)))

section BfsLemmas

variable {S : Type} [DecidableEq S]

/-- Visiting an unvisited state shrinks the unvisited filter by erasing
exactly that state (the universe has no duplicates). -/
theorem filter_notMem_cons_eq_erase {univ : List S} (hu : univ.Nodup)
    {src : S} {visited : List S} (hsrc : src ∈ univ) (hv : src ∉ visited) :
    univ.filter (fun v => decide (v ∉ src :: visited)) =
      (univ.filter (fun v => decide (v ∉ visited))).erase src := by
  induction univ with
  | nil => rfl
  | cons u us ihm =>
    rcases List.nodup_cons.mp hu with ⟨hnu, hus⟩
    by_cases hus2 : u = src
    · subst hus2
      rw [List.filter_cons, List.filter_cons,
        if_neg (by simp : ¬(decide (u ∉ u :: visited) = true)),
        if_pos (by simp [hv] : decide (u ∉ visited) = true),
        List.erase_cons_head]
      apply List.filter_congr
      intro v hvmem
      have hvs : v ≠ u := fun h => hnu (h ▸ hvmem)
      simp [List.mem_cons, hvs]
    · have hsrc2 : src ∈ us := by
        rcases List.mem_cons.mp hsrc with h | h
        · exact absurd h.symm hus2
        · exact h
      have ih2 := ihm hus hsrc2
      by_cases huv : u ∈ visited
      · rw [List.filter_cons, List.filter_cons,
          if_neg (by simp [List.mem_cons, huv] :
            ¬(decide (u ∉ src :: visited) = true)),
          if_neg (by simp [huv] : ¬(decide (u ∉ visited) = true))]
        exact ih2
      · rw [List.filter_cons, List.filter_cons,
          if_pos (by simp [List.mem_cons, hus2, huv] :
            decide (u ∉ src :: visited) = true),
          if_pos (by simp [huv] : decide (u ∉ visited) = true),
          List.erase_cons_tail, ih2]
        simp [hus2]


/-- Removing a list member removes exactly its contribution from a mapped
sum. -/
theorem sum_map_erase_add {l : List S} {a : S} (f : S → Nat) (h : a ∈ l) :
    ((l.erase a).map f).sum + f a = (l.map f).sum := by
  have hp : l.Perm (a :: l.erase a) := List.perm_cons_erase h
  have hs := (hp.map f).sum_eq
  simp only [List.map_cons, List.sum_cons] at hs
  omega

/-- Master invariant of the while-let BFS loop, by induction on the fuel:
whenever the potential fits in the fuel, the queue stays inside the
universe, and every visited state's neighbors are visited or queued, the
run (1) keeps every visited state, (2) absorbs every queued state, (3) is
closed under neighbors, and (4) contains only states that were already
visited or are neighbor-reachable from some queued state. -/
theorem bfsAux_master (nbrs : S → List S) (univ : List S) (hu : univ.Nodup)
    (hcl : ∀ v x, x ∈ nbrs v → x ∈ univ) :
    ∀ (fuel : Nat) (visited queue : List S),
      bfsPotential nbrs univ visited queue ≤ fuel →
      (∀ x ∈ queue, x ∈ univ) →
      (∀ v ∈ visited, ∀ x ∈ nbrs v, x ∈ visited ∨ x ∈ queue) →
      (∀ x ∈ visited, x ∈ bfsAux nbrs fuel visited queue) ∧
      (∀ x ∈ queue, x ∈ bfsAux nbrs fuel visited queue) ∧
      (∀ v ∈ bfsAux nbrs fuel visited queue, ∀ x ∈ nbrs v,
        x ∈ bfsAux nbrs fuel visited queue) ∧
      (∀ x ∈ bfsAux nbrs fuel visited queue, x ∈ visited ∨
        ∃ q ∈ queue, Relation.ReflTransGen (fun a b => b ∈ nbrs a) q x) := by
  intro fuel
  induction fuel with
  | zero =>
    intro visited queue hp hq hclos
    have hq0 : queue = [] := by
      apply List.length_eq_zero.mp
      simp only [bfsPotential] at hp
      omega
    subst hq0
    refine ⟨fun x hx => hx, fun x hx => (List.not_mem_nil x hx).elim, ?_,
      fun x hx => Or.inl hx⟩
    intro v hv x hx
    rcases hclos v hv x hx with h | h
    · exact h
    · exact (List.not_mem_nil x h).elim
  | succ fuel ih =>
    intro visited queue hp hq hclos
    match queue with
    | [] =>
      refine ⟨fun x hx => hx, fun x hx => (List.not_mem_nil x hx).elim, ?_,
        fun x hx => Or.inl hx⟩
      intro v hv x hx
      rcases hclos v hv x hx with h | h
      · exact h
      · exact (List.not_mem_nil x h).elim
    | src :: rest =>
      have heq0 : bfsAux nbrs (fuel + 1) visited (src :: rest) =
          if src ∈ visited then bfsAux nbrs fuel visited rest
          else bfsAux nbrs fuel (src :: visited) (rest ++ nbrs src) := rfl
      by_cases hv : src ∈ visited
      · have hp2 : bfsPotential nbrs univ visited rest ≤ fuel := by
          simp only [bfsPotential, List.length_cons] at hp ⊢
          omega
        have hq2 : ∀ x ∈ rest, x ∈ univ :=
          fun x hx => hq x (List.mem_cons_of_mem _ hx)
        have hclos2 : ∀ v ∈ visited, ∀ x ∈ nbrs v, x ∈ visited ∨ x ∈ rest := by
          intro v hvv x hx
          rcases hclos v hvv x hx with h | h
          · exact Or.inl h
          · rcases List.mem_cons.mp h with h2 | h2
            · exact Or.inl (by rw [h2]; exact hv)
            · exact Or.inr h2
        obtain ⟨ih1, ih2, ih3, ih4⟩ := ih visited rest hp2 hq2 hclos2
        rw [heq0, if_pos hv]
        refine ⟨ih1, ?_, ih3, ?_⟩
        · intro x hx
          rcases List.mem_cons.mp hx with h | h
          · subst h; exact ih1 x hv
          · exact ih2 x h
        · intro x hx
          rcases ih4 x hx with h | ⟨q, hqr, hr⟩
          · exact Or.inl h
          · exact Or.inr ⟨q, List.mem_cons_of_mem _ hqr, hr⟩
      · have hsrcu : src ∈ univ := hq src (List.mem_cons_self _ _)
        have hfe := filter_notMem_cons_eq_erase hu hsrcu hv
        have hsrcf : src ∈ univ.filter (fun v => decide (v ∉ visited)) :=
          List.mem_filter.mpr ⟨hsrcu, decide_eq_true hv⟩
        have hsum : (((univ.filter (fun v => decide (v ∉ visited))).erase
              src).map (fun v => (nbrs v).length + 1)).sum +
            ((nbrs src).length + 1) =
            ((univ.filter (fun v => decide (v ∉ visited))).map
              (fun v => (nbrs v).length + 1)).sum :=
          sum_map_erase_add (fun v => (nbrs v).length + 1) hsrcf
        have hp2 : bfsPotential nbrs univ (src :: visited)
            (rest ++ nbrs src) ≤ fuel := by
          simp only [bfsPotential, List.length_cons, List.length_append]
            at hp ⊢
          rw [hfe]
          omega
        have hq2 : ∀ x ∈ rest ++ nbrs src, x ∈ univ := by
          intro x hx
          rcases List.mem_append.mp hx with h | h
          · exact hq x (List.mem_cons_of_mem _ h)
          · exact hcl src x h
        have hclos2 : ∀ v ∈ src :: visited, ∀ x ∈ nbrs v,
            x ∈ src :: visited ∨ x ∈ rest ++ nbrs src := by
          intro v hvv x hx
          rcases List.mem_cons.mp hvv with h | h
          · subst h; exact Or.inr (List.mem_append_right _ hx)
          · rcases hclos v h x hx with h2 | h2
            · exact Or.inl (List.mem_cons_of_mem _ h2)
            · rcases List.mem_cons.mp h2 with h3 | h3
              · exact Or.inl (by rw [h3]; exact List.mem_cons_self _ _)
              · exact Or.inr (List.mem_append_left _ h3)
        obtain ⟨ih1, ih2, ih3, ih4⟩ :=
          ih (src :: visited) (rest ++ nbrs src) hp2 hq2 hclos2
        rw [heq0, if_neg hv]
        refine ⟨?_, ?_, ih3, ?_⟩
        · intro x hx
          exact ih1 x (List.mem_cons_of_mem _ hx)
        · intro x hx
          rcases List.mem_cons.mp hx with h | h
          · subst h; exact ih1 x (List.mem_cons_self _ _)
          · exact ih2 x (List.mem_append_left _ h)
        · intro x hx
          rcases ih4 x hx with h | ⟨q, hqm, hr⟩
          · rcases List.mem_cons.mp h with h2 | h2
            · exact Or.inr ⟨src, List.mem_cons_self _ _,
                by rw [h2]⟩
            · exact Or.inl h2
          · rcases List.mem_append.mp hqm with h2 | h2
            · exact Or.inr ⟨q, List.mem_cons_of_mem _ h2, hr⟩
            · exact Or.inr ⟨src, List.mem_cons_self _ _,
                Relation.ReflTransGen.head h2 hr⟩

/-- The BFS result from a seed list inside a duplicate-free universe closed
under the neighbor map is exactly the set of states neighbor-reachable from
some seed. -/
theorem bfsFrom_mem (nbrs : S → List S) (univ seeds : List S)
    (hu : univ.Nodup) (hcl : ∀ v x, x ∈ nbrs v → x ∈ univ)
    (hseeds : ∀ x ∈ seeds, x ∈ univ) (x : S) :
    x ∈ bfsFrom nbrs univ seeds ↔
      ∃ s ∈ seeds, Relation.ReflTransGen (fun a b => b ∈ nbrs a) s x := by
  have hp : bfsPotential nbrs univ [] seeds ≤ bfsFuel nbrs univ seeds := by
    simp only [bfsPotential, bfsFuel]
    have hfeq : univ.filter (fun v => decide (v ∉ ([] : List S))) = univ := by
      apply List.filter_eq_self.mpr
      intro a _
      simp
    rw [hfeq]
  obtain ⟨m1, m2, m3, m4⟩ := bfsAux_master nbrs univ hu hcl
    (bfsFuel nbrs univ seeds) [] seeds hp hseeds
    (fun v hv => (List.not_mem_nil v hv).elim)
  constructor
  · intro hx
    rcases m4 x hx with h | h
    · exact (List.not_mem_nil x h).elim
    · exact h
  · rintro ⟨s, hs, hreach⟩
    induction hreach with
    | refl => exact m2 s hs
    | @tail b c hab hbc ihw => exact m3 b ihw c hbc

end BfsLemmas

section PruneProofs

variable {S E : Type} [DecidableEq S] [DecidableEq E]

/-- Membership in the forward neighbor list is exactly having an outgoing
transition. -/
theorem mem_nbrsOut (ts : List (S × E × S)) (v x : S) :
    x ∈ nbrsOut ts v ↔ ∃ l, (v, l, x) ∈ ts := by
  rw [nbrsOut, byA, lookupG_groupByTo, List.map_map]
  simp only [List.mem_map, List.mem_filter, decide_eq_true_eq]
  constructor
  · rintro ⟨t, ⟨hts, hkey⟩, hval⟩
    refine ⟨t.2.1, ?_⟩
    have ht : t = (v, t.2.1, x) := by
      obtain ⟨a, l, c⟩ := t
      have h1 : a = v := hkey
      have h2 : c = x := hval
      rw [h1, h2]
    rwa [ht] at hts
  · rintro ⟨l, hl⟩
    exact ⟨(v, l, x), ⟨hl, rfl⟩, rfl⟩

/-- Membership in the backward neighbor list is exactly having an incoming
transition. -/
theorem mem_nbrsIn (ts : List (S × E × S)) (v x : S) :
    x ∈ nbrsIn ts v ↔ ∃ l, (x, l, v) ∈ ts := by
  rw [nbrsIn, byC, lookupG_groupByTo, List.map_map]
  simp only [List.mem_map, List.mem_filter, decide_eq_true_eq]
  constructor
  · rintro ⟨t, ⟨hts, hkey⟩, hval⟩
    refine ⟨t.2.1, ?_⟩
    have ht : t = (x, t.2.1, v) := by
      obtain ⟨a, l, c⟩ := t
      have h1 : c = v := hkey
      have h2 : a = x := hval
      rw [h1, h2]
    rwa [ht] at hts
  · rintro ⟨l, hl⟩
    exact ⟨(x, l, v), ⟨hl, rfl⟩, rfl⟩

/-- Reflexive-transitive closure over a reversed relation, reversed. -/
theorem reflTransGen_swap_mp {T : Type} {r : T → T → Prop} {a b : T}
    (h : Relation.ReflTransGen (fun x y => r y x) a b) :
    Relation.ReflTransGen r b a := by
  induction h with
  | refl => exact Relation.ReflTransGen.refl
  | @tail u c hab hbc ih => exact Relation.ReflTransGen.head hbc ih

/-- Walking forward neighbor lists is transition reachability. -/
theorem reachOut_iff (ts : List (S × E × S)) (a b : S) :
    Relation.ReflTransGen (fun u w => w ∈ nbrsOut ts u) a b ↔ ReachT ts a b := by
  constructor
  · intro h
    exact Relation.ReflTransGen.mono
      (fun u w hw => (mem_nbrsOut ts u w).mp hw) h
  · intro h
    exact Relation.ReflTransGen.mono
      (fun u w hw => (mem_nbrsOut ts u w).mpr hw) h

/-- Walking backward neighbor lists is reversed transition reachability. -/
theorem reachIn_iff (ts : List (S × E × S)) (a b : S) :
    Relation.ReflTransGen (fun u w => w ∈ nbrsIn ts u) a b ↔ ReachT ts b a := by
  constructor
  · intro h
    exact reflTransGen_swap_mp
      (Relation.ReflTransGen.mono (fun u w hw => (mem_nbrsIn ts u w).mp hw) h)
  · intro h
    exact reflTransGen_swap_mp
      (Relation.ReflTransGen.mono (fun x y hxy => (mem_nbrsIn ts y x).mpr hxy) h)

/-- The reachable list of prune_unreachable holds exactly the states
reachable from the initial state. -/
theorem mem_reachableOf (d : DFA S E) (x : S) :
    x ∈ reachableOf d ↔ ReachT d.transitions d.initial_state x := by
  rw [reachableOf, bfsFrom_mem]
  · constructor
    · rintro ⟨s, hs, hr⟩
      obtain rfl := List.mem_singleton.mp hs
      exact (reachOut_iff d.transitions d.initial_state x).mp hr
    · intro hr
      exact ⟨d.initial_state, List.mem_singleton_self _,
        (reachOut_iff d.transitions d.initial_state x).mpr hr⟩
  · exact List.nodup_dedup _
  · intro v y hy
    rcases (mem_nbrsOut d.transitions v y).mp hy with ⟨l, hl⟩
    exact List.mem_dedup.mpr (List.mem_cons_of_mem _
      (List.mem_map.mpr ⟨(v, l, y), hl, rfl⟩))
  · intro y hy
    obtain rfl := List.mem_singleton.mp hy
    exact List.mem_dedup.mpr (List.mem_cons_self _ _)

/-- The relevant list of prune_unreachable holds exactly the states from
which some accepting state is reachable. -/
theorem mem_relevantOf (d : DFA S E) (x : S) :
    x ∈ relevantOf d ↔ ∃ f ∈ d.final_states, ReachT d.transitions x f := by
  rw [relevantOf, bfsFrom_mem]
  · constructor
    · rintro ⟨s, hs, hr⟩
      exact ⟨s, hs, (reachIn_iff d.transitions s x).mp hr⟩
    · rintro ⟨f, hf, hr⟩
      exact ⟨f, hf, (reachIn_iff d.transitions f x).mpr hr⟩
  · exact List.nodup_dedup _
  · intro v y hy
    rcases (mem_nbrsIn d.transitions v y).mp hy with ⟨l, hl⟩
    exact List.mem_dedup.mpr (List.mem_append_right _
      (List.mem_map.mpr ⟨(y, l, v), hl, rfl⟩))
  · intro y hy
    exact List.mem_dedup.mpr (List.mem_append_left _ hy)

/-- Liveness is joint membership in the two BFS results. -/
theorem live_iff_mem (d : DFA S E) (x : S) :
    Live d x ↔ x ∈ reachableOf d ∧ x ∈ relevantOf d := by
  rw [mem_reachableOf, mem_relevantOf]
  exact Iff.rfl

/-- prune returns the empty-language signal exactly when no accepting state
is reachable from the initial state. -/
theorem pruneUnreachable_eq_none_iff (d : DFA S E) :
    pruneUnreachable d = none ↔
      ¬ ∃ f ∈ d.final_states, ReachT d.transitions d.initial_state f := by
  have hr : d.initial_state ∈ reachableOf d :=
    (mem_reachableOf d d.initial_state).mpr Relation.ReflTransGen.refl
  by_cases hc : d.initial_state ∈ reachableOf d ∧
      d.initial_state ∈ relevantOf d
  · rw [pruneUnreachable, if_pos hc]
    exact ⟨fun h => Option.noConfusion h,
      fun hno => absurd ((mem_relevantOf d d.initial_state).mp hc.2) hno⟩
  · rw [pruneUnreachable, if_neg hc]
    refine ⟨fun _ hex => ?_, fun _ => rfl⟩
    exact hc ⟨hr, (mem_relevantOf d d.initial_state).mpr hex⟩

/-- Any DFA prune returns satisfies the C2 description. -/
theorem pruneUnreachable_some_spec (d P : DFA S E)
    (h : pruneUnreachable d = some P) : PruneSpec d P := by
  by_cases hc : d.initial_state ∈ reachableOf d ∧
      d.initial_state ∈ relevantOf d
  · rw [pruneUnreachable, if_pos hc] at h
    injection h with h
    have hI : P.initial_state = d.initial_state := by rw [← h]
    have hF : P.final_states = d.final_states.filter
        (fun q => decide (q ∈ reachableOf d ∧ q ∈ relevantOf d)) := by
      rw [← h]
    have hT : P.transitions = d.transitions.filter
        (fun t => decide ((t.1 ∈ reachableOf d ∧ t.1 ∈ relevantOf d) ∧
          (t.2.2 ∈ reachableOf d ∧ t.2.2 ∈ relevantOf d))) := by
      rw [← h]
    refine ⟨hI, by rw [hF]; exact List.filter_sublist _,
      by rw [hT]; exact List.filter_sublist _, ?_, ?_⟩
    · intro q
      rw [hF]
      simp only [List.mem_filter, decide_eq_true_eq]
      constructor
      · rintro ⟨hq, hm⟩
        exact ⟨hq, (live_iff_mem d q).mpr hm⟩
      · rintro ⟨hq, hl⟩
        exact ⟨hq, (live_iff_mem d q).mp hl⟩
    · intro t
      rw [hT]
      simp only [List.mem_filter, decide_eq_true_eq]
      constructor
      · rintro ⟨ht, hm1, hm2⟩
        exact ⟨ht, (live_iff_mem d t.1).mpr hm1, (live_iff_mem d t.2.2).mpr hm2⟩
      · rintro ⟨ht, hl1, hl2⟩
        exact ⟨ht, (live_iff_mem d t.1).mp hl1, (live_iff_mem d t.2.2).mp hl2⟩
  · rw [pruneUnreachable, if_neg hc] at h
    exact Option.noConfusion h

/-- Path transfer into the pruned DFA: a path segment whose start is
reachable from the initial state and whose end can still reach an accepting
state runs entirely through live states, so every edge of it survives
pruning. -/
theorem seg_transfer (d P : DFA S E) (h : pruneUnreachable d = some P) :
    ∀ a b, ReachT d.transitions a b →
      ReachT d.transitions d.initial_state a →
      (∃ f ∈ d.final_states, ReachT d.transitions b f) →
      ReachT P.transitions a b := by
  obtain ⟨hI, hs1, hs2, hFin, hTr⟩ := pruneUnreachable_some_spec d P h
  intro a b hab
  induction hab with
  | refl => intro _ _; exact Relation.ReflTransGen.refl
  | @tail u c hab2 hstep ih =>
    rintro hinit ⟨f, hf, hcf⟩
    rcases hstep with ⟨l, hl⟩
    have hurel : ∃ g ∈ d.final_states, ReachT d.transitions u g :=
      ⟨f, hf, Relation.ReflTransGen.head ⟨l, hl⟩ hcf⟩
    have ihP : ReachT P.transitions a u := ih hinit hurel
    have hulive : Live d u := ⟨Relation.ReflTransGen.trans hinit hab2, hurel⟩
    have hclive : Live d c :=
      ⟨Relation.ReflTransGen.trans hinit
        (Relation.ReflTransGen.tail hab2 ⟨l, hl⟩), f, hf, hcf⟩
    have hedge : (u, l, c) ∈ P.transitions :=
      (hTr (u, l, c)).mpr ⟨hl, hulive, hclive⟩
    exact Relation.ReflTransGen.tail ihP ⟨l, hedge⟩

end PruneProofs

/-- C2: prune returns the empty-language signal (none) exactly when the
initial state reaches no accepting state; otherwise the returned DFA keeps
the initial state, its accepting set is the original accepting set
restricted to the live states, and its transitions are exactly the original
transitions with both endpoints live (both as order-preserving
subsequences). -/
theorem c2_prune_characterization {S E : Type} [DecidableEq S]
    [DecidableEq E] (d : DFA S E) :
    (pruneUnreachable d = none ↔
      ¬ ∃ f ∈ d.final_states, ReachT d.transitions d.initial_state f) ∧
    (∀ P, pruneUnreachable d = some P → PruneSpec d P) :=
  ⟨pruneUnreachable_eq_none_iff d,
   fun P hP => pruneUnreachable_some_spec d P hP⟩

/-- C2 witness: on the repository test DFA, prune succeeds and the result
(the pruned wikipedia DFA) satisfies the C2 description. -/
theorem c2_prune_characterization_witness :
    pruneUnreachable exWiki = some exWikiPruned ∧
      PruneSpec exWiki exWikiPruned :=
  ⟨by decide, (c2_prune_characterization exWiki).2 exWikiPruned (by decide)⟩

/-- C9: pruning is idempotent: on the result of a successful prune, prune
succeeds again and returns it unchanged. Proof: every state that survived
is live in the original, its liveness witnesses transfer edge by edge into
the pruned DFA, so both BFS passes of the second prune keep everything. -/
theorem c9_prune_idempotent {S E : Type} [DecidableEq S] [DecidableEq E]
    (d P : DFA S E) (h : pruneUnreachable d = some P) :
    pruneUnreachable P = some P := by
  obtain ⟨hI, hs1, hs2, hFin, hTr⟩ := pruneUnreachable_some_spec d P h
  have htrans := seg_transfer d P h
  have hlive_reach : ∀ x, Live d x →
      ReachT P.transitions P.initial_state x := by
    rintro x ⟨hr, hrel⟩
    rw [hI]
    exact htrans d.initial_state x hr Relation.ReflTransGen.refl hrel
  have hlive_rel : ∀ x, Live d x →
      ∃ f ∈ P.final_states, ReachT P.transitions x f := by
    rintro x ⟨hr, f, hf, hxf⟩
    have hflive : Live d f :=
      ⟨Relation.ReflTransGen.trans hr hxf, f, hf, Relation.ReflTransGen.refl⟩
    exact ⟨f, (hFin f).mpr ⟨hf, hflive⟩,
      htrans x f hxf hr ⟨f, hf, Relation.ReflTransGen.refl⟩⟩
  have hmemP : ∀ x, Live d x → x ∈ reachableOf P ∧ x ∈ relevantOf P := by
    intro x hlx
    exact ⟨(mem_reachableOf P x).mpr (hlive_reach x hlx),
      (mem_relevantOf P x).mpr (hlive_rel x hlx)⟩
  have hinitlive : Live d d.initial_state := by
    by_cases hc : d.initial_state ∈ reachableOf d ∧
        d.initial_state ∈ relevantOf d
    · exact (live_iff_mem d d.initial_state).mpr hc
    · rw [pruneUnreachable, if_neg hc] at h
      exact Option.noConfusion h
  have hcP : P.initial_state ∈ reachableOf P ∧
      P.initial_state ∈ relevantOf P := by
    have hm := hmemP d.initial_state hinitlive
    rw [hI]
    exact hm
  rw [pruneUnreachable, if_pos hcP]
  have hFkeep : P.final_states.filter
      (fun q => decide (q ∈ reachableOf P ∧ q ∈ relevantOf P)) =
      P.final_states := by
    apply List.filter_eq_self.mpr
    intro q hq
    exact decide_eq_true (hmemP q ((hFin q).mp hq).2)
  have hTkeep : P.transitions.filter
      (fun t => decide ((t.1 ∈ reachableOf P ∧ t.1 ∈ relevantOf P) ∧
        (t.2.2 ∈ reachableOf P ∧ t.2.2 ∈ relevantOf P))) =
      P.transitions := by
    apply List.filter_eq_self.mpr
    intro t ht
    obtain ⟨hmem, hl1, hl2⟩ := (hTr t).mp ht
    exact decide_eq_true ⟨hmemP t.1 hl1, hmemP t.2.2 hl2⟩
  rw [hFkeep, hTkeep]

/-- C9 witness: pruning the already-pruned wikipedia DFA returns it
unchanged. -/
theorem c9_prune_idempotent_witness :
    pruneUnreachable exWikiPruned = some exWikiPruned :=
  c9_prune_idempotent exWiki exWikiPruned (by decide)

end DfaUtils
